import Mathlib

/-!
Verification development for the ENTSO-E synchronization pipeline
(`entseo_pipeline.py`, per-timestamp variant, and
`entseo_pipeline_time_serie.py`, per-day variant).

The development shallowly embeds the two Python modules:

* a generic association-list store modelling the MongoDB collection at the
  interface boundary required by the code (`update_one` / `UpdateOne` with a
  `$set` document and `upsert=True`: insert the document if no document
  matches the key filter, otherwise merge exactly the fields present in the
  `$set` document into the first matching document);
* a model of `datetime` (proleptic Gregorian calendar, minute arithmetic,
  `fromisoformat`, `isoformat`, `strftime` date keys) restricted to the
  second-precision, UTC-or-naive datetimes the pipeline manipulates;
* an XML element-tree model with the navigation primitives used by the
  decoders (`find`, `findall`, `.//` descendant search, `.text`);
* the decoders `fetch_generation` / `fetch_prices` of both variants (their
  XML-to-points part; HTTP transport is abstracted as an `Option` input:
  `none` stands for a request/parse failure that the code turns into an
  empty result), the coverage index `get_existing_fields_by_timestamp`,
  `merge_series`, the window loops and the `run` drivers.

Python exceptions are modelled with `Except String`; a `.error` value marks a
raised exception (`AttributeError`, `ValueError`, `KeyError`, ...).
Python floats are modelled as rationals (`Rat`): every numeric literal
handled by the pipeline is decimal, and the claims under study concern the
exact decimal contract (for instance division by 10), not rounding.
-/

namespace Entsoe

/-! ## Generic association-list store

`SDoc` is one stored document: a key (the upsert filter: `(bidding_zone,
timestamp)` in the per-timestamp variant, `(bidding_zone, date)` in the
per-day variant; the filter fields are also set by `$set` but always with
the very key values, so they are kept structurally) together with its other
fields as an association list in insertion order — the model of a BSON
document. -/

structure SDoc (K F V : Type) where
  key : K
  data : List (F × V)
deriving DecidableEq

variable {K F V : Type} [DecidableEq K] [DecidableEq F]

/-- Set one field of a document (or of any association list): replace the
value at the first occurrence of the field, keeping its position, or append
the field at the end — Python `d[f] = v` / MongoDB `$set` of one field. -/
def setField : List (F × V) → F → V → List (F × V)
  | [], f, v => [(f, v)]
  | (a, b) :: t, f, v => if a = f then (a, v) :: t else (a, b) :: setField t f v

/-- Set several fields in order — MongoDB `$set` of a whole document. -/
def setAll (d : List (F × V)) (fs : List (F × V)) : List (F × V) :=
  fs.foldl (fun d p => setField d p.1 p.2) d

/-- Value of a field of an association list (first occurrence). -/
def lookupF (d : List (F × V)) (f : F) : Option V :=
  (d.find? (fun p => p.1 = f)).map (fun p => p.2)

/-- First document matching a key — the document an `update_one`/`UpdateOne`
filter selects. -/
def docLookup (s : List (SDoc K F V)) (k : K) : Option (SDoc K F V) :=
  s.find? (fun d => d.key = k)

/-- Merge fields into the first document matching the key. -/
def docUpdate : List (SDoc K F V) → K → List (F × V) → List (SDoc K F V)
  | [], _, _ => []
  | d :: t, k, fs =>
    if d.key = k then { d with data := setAll d.data fs } :: t
    else d :: docUpdate t k fs

/-- MongoDB `update_one(filter, {"$set": fields}, upsert=True)`: merge the
fields into the first matching document, or insert a fresh document when no
document matches. -/
def upsert (s : List (SDoc K F V)) (k : K) (fs : List (F × V)) :
    List (SDoc K F V) :=
  match docLookup s k with
  | some _ => docUpdate s k fs
  | none => s ++ [⟨k, setAll [] fs⟩]

/-- Value of one field of the (first) document stored at a key. -/
def fieldVal (s : List (SDoc K F V)) (k : K) (f : F) : Option V :=
  (docLookup s k).bind (fun d => lookupF d.data f)

/-- Number of documents stored under a key. -/
def countKey (s : List (SDoc K F V)) (k : K) : Nat :=
  (s.filter (fun d => d.key = k)).length

/-- Store well-formedness: document keys are pairwise distinct (the spec
invariant "a CompositeRecord's key is unique in the store") and each
document's field names are pairwise distinct (BSON documents). -/
def WFStore (s : List (SDoc K F V)) : Prop :=
  (s.map (fun d => d.key)).Nodup ∧ ∀ d ∈ s, (d.data.map (fun p => p.1)).Nodup

/-- A single multi-field upsert, as a "write" event. -/
def applyW (s : List (SDoc K F V)) (w : K × List (F × V)) : List (SDoc K F V) :=
  upsert s w.1 w.2

/-- Last value written to a field by a list of field writes. -/
def lastVal : List (F × V) → F → Option V
  | [], _ => none
  | (a, b) :: t, f =>
    match lastVal t f with
    | some v => some v
    | none => if a = f then some b else none

/-- All single-field writes a list of upserts performs at one key, in order. -/
def fieldWrites (ws : List (K × List (F × V))) (k : K) : List (F × V) :=
  (ws.filter (fun w => w.1 = k)).flatMap (fun w => w.2)

/-! ## Calendar and `datetime` model

Python `datetime` uses the proleptic Gregorian calendar with years 1..9999.
An instant is mapped to an absolute minute count from 0001-01-01T00:00.
Loops over years/months are written with an explicit fuel argument (always
called with enough fuel, which the correctness lemmas discharge) so that all
definitions are structurally recursive and kernel-computable. -/

def isLeap (y : Nat) : Bool :=
  (y % 4 == 0 && y % 100 != 0) || (y % 400 == 0)

def daysInMonth (y m : Nat) : Nat :=
  if m = 2 then (if isLeap y then 29 else 28)
  else if m = 4 ∨ m = 6 ∨ m = 9 ∨ m = 11 then 30
  else 31

def daysInYear (y : Nat) : Nat := if isLeap y then 366 else 365

/-- Days from 0001-01-01 to the first day of year `y`, in closed form (the
standard proleptic-Gregorian day count; the recurrence
`daysBeforeYear (y+1) = daysBeforeYear y + daysInYear y` is proved below). -/
def daysBeforeYear (y : Nat) : Nat :=
  365 * (y - 1) + (y - 1) / 4 - (y - 1) / 100 + (y - 1) / 400

/-- Days from the first day of year `y` to the first day of month `m`. -/
def daysBeforeMonth (y : Nat) : Nat → Nat
  | 0 => 0
  | m + 1 => if m = 0 then 0 else daysBeforeMonth y m + daysInMonth y m

/-- Ordinal day (0-based) of a calendar date. -/
def ordinalOfDate (y m d : Nat) : Nat :=
  daysBeforeYear y + daysBeforeMonth y m + (d - 1)

/-- Year containing an ordinal day: an arithmetic first guess (400 Gregorian
years span 146097 days) corrected by at most one year in each direction. -/
def yearOfOrdinal (n : Nat) : Nat :=
  let g := 400 * n / 146097 + 1
  let a := if daysBeforeYear (g + 1) ≤ n then g + 1 else g
  if daysBeforeYear a ≤ n then a else a - 1

/-- Resolve a 0-based day of year to its month: starting at month `m`,
subtract whole months while they fit. -/
def monthLoop (y : Nat) : Nat → Nat → Nat → Nat × Nat
  | 0, m, d => (m, d)
  | fuel + 1, m, d =>
    if d < daysInMonth y m then (m, d) else monthLoop y fuel (m + 1) (d - daysInMonth y m)

/-- Calendar date `(year, month, day)` of an ordinal day (day 0 =
0001-01-01). -/
def dateOfOrdinal (n : Nat) : Nat × Nat × Nat :=
  let y := yearOfOrdinal n
  let md := monthLoop y 12 1 (n - daysBeforeYear y)
  (y, md.1, md.2 + 1)

/-- Model of a Python `datetime` as the pipeline uses it: second precision
(the upstream format carries no sub-second part), and either naive
(`utc = false`) or timezone-aware with offset UTC (`utc = true`) — the only
two tzinfo states the code produces. -/
structure PyDateTime where
  year : Nat
  month : Nat
  day : Nat
  hour : Nat
  minute : Nat
  second : Nat
  utc : Bool
deriving DecidableEq

/-- Absolute minute count of a datetime from 0001-01-01T00:00 (seconds do
not contribute; minute arithmetic below never changes them). -/
def toAbsMin (t : PyDateTime) : Nat :=
  (ordinalOfDate t.year t.month t.day) * 1440 + t.hour * 60 + t.minute

/-- Datetime at an absolute minute count, with a given seconds field and
tz-awareness. -/
def ofAbsMin (n : Nat) (sec : Nat) (utc : Bool) : PyDateTime :=
  let ymd := dateOfOrdinal (n / 1440)
  ⟨ymd.1, ymd.2.1, ymd.2.2, n % 1440 / 60, n % 60, sec, utc⟩

/-- `t + timedelta(minutes=delta)`.  `datetime` raises `OverflowError`
outside year range 1..9999; the pipeline never leaves it, and the model
clamps at zero instead of erroring. -/
def addMinutes (t : PyDateTime) (delta : Int) : PyDateTime :=
  ofAbsMin ((toAbsMin t : Int) + delta).toNat t.second t.utc

/-- Two-digit zero-padded decimal (faithful for arguments below 100 — month,
day, hour, minute, second). -/
def pad2 (n : Nat) : String :=
  ⟨[Char.ofNat (48 + n / 10 % 10), Char.ofNat (48 + n % 10)]⟩

/-- Four-digit zero-padded decimal (faithful for arguments below 10000 —
`datetime` years are at most 9999). -/
def pad4 (n : Nat) : String :=
  ⟨[Char.ofNat (48 + n / 1000 % 10), Char.ofNat (48 + n / 100 % 10),
    Char.ofNat (48 + n / 10 % 10), Char.ofNat (48 + n % 10)]⟩

/-- `datetime.isoformat()`: `YYYY-MM-DDTHH:MM:SS` (microsecond is 0 in every
datetime the pipeline builds, so seconds are always the last time component),
followed by `+00:00` exactly when the datetime is UTC-aware. -/
def pyIso (t : PyDateTime) : String :=
  pad4 t.year ++ "-" ++ pad2 t.month ++ "-" ++ pad2 t.day ++ "T" ++
    pad2 t.hour ++ ":" ++ pad2 t.minute ++ ":" ++ pad2 t.second ++
    (if t.utc then "+00:00" else "")

/-- `strftime("%Y-%m-%d")` of the datetime at an absolute minute count. -/
def dayKey (n : Nat) : String :=
  let ymd := dateOfOrdinal (n / 1440)
  pad4 ymd.1 ++ "-" ++ pad2 ymd.2.1 ++ "-" ++ pad2 ymd.2.2

def digitVal (c : Char) : Nat := c.toNat - 48

/-- Model of `datetime.fromisoformat` on the grammar the upstream documents
use: `YYYY-MM-DDTHH:MM`, optional `:SS`, optional trailing `Z` or `+00:00`
(both parse to a UTC-aware datetime under Python ≥ 3.11, which this code
requires — it imports `datetime.UTC`).  Components are range-checked the way
`fromisoformat` checks them; anything else raises `ValueError`. -/
def piso (s : String) : Except String PyDateTime :=
  match s.toList with
  | y1 :: y2 :: y3 :: y4 :: '-' :: m1 :: m2 :: '-' :: d1 :: d2 :: 'T' ::
      h1 :: h2 :: ':' :: n1 :: n2 :: rest =>
    if ([y1, y2, y3, y4, m1, m2, d1, d2, h1, h2, n1, n2].all Char.isDigit) then
      let y := digitVal y1 * 1000 + digitVal y2 * 100 + digitVal y3 * 10 + digitVal y4
      let mo := digitVal m1 * 10 + digitVal m2
      let da := digitVal d1 * 10 + digitVal d2
      let ho := digitVal h1 * 10 + digitVal h2
      let mi := digitVal n1 * 10 + digitVal n2
      let mk : Nat → Bool → Except String PyDateTime := fun sec utc =>
        if 1 ≤ y ∧ 1 ≤ mo ∧ mo ≤ 12 ∧ 1 ≤ da ∧ da ≤ daysInMonth y mo ∧
            ho ≤ 23 ∧ mi ≤ 59 ∧ sec ≤ 59 then
          Except.ok ⟨y, mo, da, ho, mi, sec, utc⟩
        else Except.error "ValueError"
      match rest with
      | [] => mk 0 false
      | ['Z'] => mk 0 true
      | ['+', '0', '0', ':', '0', '0'] => mk 0 true
      | ':' :: s1 :: s2 :: rest2 =>
        if s1.isDigit && s2.isDigit then
          let sec := digitVal s1 * 10 + digitVal s2
          match rest2 with
          | [] => mk sec false
          | ['Z'] => mk sec true
          | ['+', '0', '0', ':', '0', '0'] => mk sec true
          | _ => Except.error "ValueError"
        else Except.error "ValueError"
      | _ => Except.error "ValueError"
    else Except.error "ValueError"
  | _ => Except.error "ValueError"

/-- `s.replace("Z", "")`: drop every `Z`. -/
def stripZ (s : String) : String := ⟨s.toList.filter (fun c => c ≠ 'Z')⟩

/-! ## Decimal number parsing (`int(...)`, `float(...)`)

Modelled on plain decimal literals, the only numerals the upstream format
carries (`float` values become exact rationals). -/

def parseDigits (cs : List Char) : Option Nat :=
  if !cs.isEmpty && cs.all Char.isDigit then
    some (cs.foldl (fun n c => n * 10 + digitVal c) 0)
  else none

/-- Split a character list at the first dot, keeping the part after it. -/
def splitDot : List Char → List Char × Option (List Char)
  | [] => ([], none)
  | c :: t =>
    if c = '.' then ([], some t)
    else
      let r := splitDot t
      (c :: r.1, r.2)

/-- `int(s)` on an optionally signed decimal literal. -/
def parseInt (s : String) : Except String Int :=
  match s.toList with
  | '-' :: cs =>
    match parseDigits cs with
    | some n => Except.ok (-(n : Int))
    | none => Except.error "ValueError"
  | cs =>
    match parseDigits cs with
    | some n => Except.ok (n : Int)
    | none => Except.error "ValueError"

/-- `float(s)` on an optionally signed decimal literal with an optional
fractional part, as an exact rational. -/
def parseRat (s : String) : Except String Rat :=
  let core : List Char → Except String Rat := fun cs =>
    match splitDot cs with
    | (w, none) =>
      match parseDigits w with
      | some n => Except.ok (n : Rat)
      | none => Except.error "ValueError"
    | (w, some f) =>
      match parseDigits w, parseDigits f with
      | some n, some m => Except.ok ((n : Rat) + (m : Rat) / ((10 : Rat) ^ f.length))
      | _, _ => Except.error "ValueError"
  match s.toList with
  | '-' :: cs => (core cs).map (fun q => -q)
  | cs => core cs

/-! ## XML element-tree model

`xml.etree.ElementTree` elements: a tag, an optional text, and a list of
child elements (attributes are never read by the pipeline).  The forest is a
separate inductive so that all traversals are structural and
kernel-computable.  Namespace prefixes resolve to fixed URIs, so tags are
compared as plain strings. -/

mutual
inductive XElem : Type where
  | mk (tag : String) (txt : Option String) (children : XForest)
inductive XForest : Type where
  | nil
  | cons (e : XElem) (rest : XForest)
end

def XElem.tag : XElem → String
  | .mk t _ _ => t

def XElem.txt : XElem → Option String
  | .mk _ x _ => x

def XElem.children : XElem → XForest
  | .mk _ _ c => c

mutual
/-- All strict descendants of an element, in document order. -/
def XElem.descendants : XElem → List XElem
  | .mk _ _ cs => XForest.descList cs

def XForest.descList : XForest → List XElem
  | .nil => []
  | .cons e r => e :: (XElem.descendants e ++ XForest.descList r)
end

def XForest.findTag : XForest → String → Option XElem
  | .nil, _ => none
  | .cons e r, t => if e.tag = t then some e else r.findTag t

def XForest.filterTag : XForest → String → List XElem
  | .nil, _ => []
  | .cons e r, t => if e.tag = t then e :: r.filterTag t else r.filterTag t

/-- `elem.find("ns:tag")`: first direct child with the tag. -/
def xfind (e : XElem) (t : String) : Option XElem := e.children.findTag t

/-- `elem.findall("ns:tag")`: direct children with the tag, in order. -/
def xfindall (e : XElem) (t : String) : List XElem := e.children.filterTag t

/-- `elem.findall(".//ns:tag")`: descendants with the tag, document order. -/
def xfindallDesc (e : XElem) (t : String) : List XElem :=
  e.descendants.filter (fun d => d.tag = t)

/-- `elem.find("ns:a/ns:b")`. -/
def xfindPath (e : XElem) (t1 t2 : String) : Option XElem :=
  (xfind e t1).bind (fun x => xfind x t2)

/-- Dereferencing the result of a `find` (`.text` on a possibly-`None`
element): raises `AttributeError` when the element was not found. -/
def req {α : Type} : Option α → Except String α
  | some a => Except.ok a
  | none => Except.error "AttributeError"

/-- `.text` handed to `fromisoformat`/`int`/`float`: a `None` text raises
`TypeError` inside those calls. -/
def reqTxt (e : XElem) : Except String String :=
  match e.txt with
  | some s => Except.ok s
  | none => Except.error "TypeError"

/-! ## Decoders shared pieces -/

/-- `{"PT15M": 15, "PT60M": 60}.get(resolution, 60)`. -/
def resInterval (res : String) : Nat :=
  if res = "PT15M" then 15 else if res = "PT60M" then 60 else 60

/-- `(start_time + timedelta(minutes=(pos - 1) * interval)).isoformat() + "Z"`,
the timestamp both decoders emit for the point at 1-based `pos`. -/
def pointTs (st : PyDateTime) (pos : Int) (interval : Nat) : String :=
  pyIso (addMinutes st ((pos - 1) * (interval : Int))) ++ "Z"

/-- `label = f"A44_{ctype.text}"` (an absent text interpolates as `None`). -/
def priceLabel (ctype : XElem) : String :=
  "A44_" ++ (match ctype.txt with | some s => s | none => "None")

/-- Python-dict field update `d[k][f] = v` after `d.setdefault(k, {})` (or on
a `defaultdict(dict)`): set field `f` of the entry at `k`, creating the entry
at the end in insertion order. -/
def dictSet {A B C : Type} [DecidableEq A] [DecidableEq B]
    (d : List (A × List (B × C))) (k : A) (f : B) (v : C) : List (A × List (B × C)) :=
  setField d k (setField ((lookupF d k).getD []) f v)

/-- `results[label].append(x)` on the price dictionary. -/
def dictAppend {A B : Type} [DecidableEq A]
    (d : List (A × List B)) (k : A) (x : B) : List (A × List B) :=
  setField d k (((lookupF d k).getD []) ++ [x])

/-! ## Per-timestamp variant (`entseo_pipeline.py`) -/

namespace P

/-- The fixed projection of `get_existing_fields_by_timestamp`. -/
def projLabels : List String := ["A75_A16_B16", "A44_A01", "A44_A07"]

/-- Store type: documents keyed by `(bidding_zone, timestamp)` with numeric
fields per series label. -/
abbrev Key := String × String

abbrev PStore := List (SDoc Key String Rat)

/-- `get_existing_fields_by_timestamp`: scan the zone's documents and map
each timestamp to those of the three projected labels the document carries
(a later document with the same timestamp overwrites the entry). -/
def get_existing (s : PStore) (zone : String) : List (String × List String) :=
  (s.filter (fun d => d.key.1 = zone)).foldl
    (fun m doc =>
      setField m doc.key.2 (projLabels.filter (fun k => (lookupF doc.data k).isSome)))
    []

/-- `ts in existing and label in existing[ts]`. -/
def skipTest (E : List (String × List String)) (ts l : String) : Bool :=
  match lookupF E ts with
  | some ks => decide (l ∈ ks)
  | none => false

/-- `fetch_generation`, decoding part.  `none` stands for a non-200 response
or an XML parse error, which the code logs and turns into `[]`. -/
def fetch_generation (doc : Option XElem) : Except String (List (String × Rat)) :=
  match doc with
  | none => Except.ok []
  | some root =>
    (xfindallDesc root "TimeSeries").foldlM
      (fun acc ts =>
        match xfind ts "Period" with
        | none => Except.ok acc
        | some period => do
          let stEl ← req (xfindPath period "timeInterval" "start")
          let stTxt ← reqTxt stEl
          let st ← piso stTxt
          let resEl ← req (xfind period "resolution")
          let resTxt ← reqTxt resEl
          let interval := resInterval resTxt
          (xfindall period "Point").foldlM
            (fun acc2 pt => do
              let posEl ← req (xfind pt "position")
              let posTxt ← reqTxt posEl
              let pos ← parseInt posTxt
              let qEl ← req (xfind pt "quantity")
              let qTxt ← reqTxt qEl
              let q ← parseRat qTxt
              Except.ok (acc2 ++ [(pointTs st pos interval, q)]))
            acc)
      []

/-- `fetch_prices`, decoding part: a dictionary of series per label, seeded
with `A44_A01` and `A44_A07`, extended with dynamically observed labels;
price amounts are divided by 10. -/
def fetch_prices (doc : Option XElem) :
    Except String (List (String × List (String × Rat))) :=
  match doc with
  | none => Except.ok [("A44_A01", []), ("A44_A07", [])]
  | some root =>
    (xfindallDesc root "TimeSeries").foldlM
      (fun results ts =>
        match xfind ts "contract_MarketAgreement.type" with
        | none => Except.ok results
        | some ctype =>
          let label := priceLabel ctype
          let results :=
            if (lookupF results label).isSome then results else results ++ [(label, [])]
          match xfind ts "Period" with
          | none => Except.ok results
          | some period => do
            let stEl ← req (xfindPath period "timeInterval" "start")
            let stTxt ← reqTxt stEl
            let st ← piso (stripZ stTxt)
            let resEl ← req (xfind period "resolution")
            let resTxt ← reqTxt resEl
            let interval := resInterval resTxt
            (xfindall period "Point").foldlM
              (fun results2 pt =>
                match xfind pt "position", xfind pt "price.amount" with
                | some posEl, some valEl => do
                  let posTxt ← reqTxt posEl
                  let pos ← parseInt posTxt
                  let vTxt ← reqTxt valEl
                  let v ← parseRat vTxt
                  Except.ok (dictAppend results2 label (pointTs st pos interval, v / 10))
                | _, _ => Except.ok results2)
              results)
      [("A44_A01", []), ("A44_A07", [])]

/-- The `(timestamp, label, value)` triples the two merge loops of `run`
visit, in visiting order (generation first, then each price label's series),
before the coverage check. -/
def rawTrace (gen : List (String × Rat)) (price : List (String × List (String × Rat))) :
    List (String × String × Rat) :=
  gen.map (fun q => (q.1, "A75_A16_B16", q.2)) ++
    price.flatMap (fun lp => lp.2.map (fun q => (q.1, lp.1, q.2)))

/-- The same triples after the `continue`-on-covered check of both loops. -/
def windowTrace (E : List (String × List String))
    (gen : List (String × Rat)) (price : List (String × List (String × Rat))) :
    List (String × String × Rat) :=
  (rawTrace gen price).filter (fun w => !(skipTest E w.1 w.2.1))

/-- The `merged` dictionary one window builds: timestamp to fields, in
insertion order (`bidding_zone`/`timestamp` base fields are the document key,
kept structurally). -/
def mergedDict (E : List (String × List String))
    (gen : List (String × Rat)) (price : List (String × List (String × Rat))) :
    List (String × List (String × Rat)) :=
  (windowTrace E gen price).foldl (fun d w => dictSet d w.1 w.2.1 w.2.2) []

/-- Merge one window's data and bulk-upsert the resulting records
(`bulk_write` of one `UpdateOne(..., upsert=True)` per record; an empty
record list writes nothing, which is also a fold over no records). -/
def windowApply (zone : String) (E : List (String × List String))
    (gen : List (String × Rat)) (price : List (String × List (String × Rat)))
    (s : PStore) : PStore :=
  (mergedDict E gen price).foldl (fun s r => upsert s (zone, r.1) r.2) s

/-- Per-window upstream responses, already decoded: the model of
`fetch_generation`/`fetch_prices` results as a function of the EIC code and
the window (identical responses across runs = one fixed oracle). -/
abbrev Oracle :=
  String → Nat × Nat → List (String × Rat) × List (String × List (String × Rat))

/-- One zone sweep as a list of single-field store writes, the coverage
index fixed at zone entry (trace form of `runZone`). -/
def zoneWrites (zone : String) (E : List (String × List String)) (data : Oracle)
    (eic : String) (ws : List (Nat × Nat)) : List (Key × List (String × Rat)) :=
  ws.flatMap (fun w =>
    (windowTrace E (data eic w).1 (data eic w).2).map
      (fun t => ((zone, t.1), [(t.2.1, t.2.2)])))

/-- The same writes before the coverage check. -/
def zoneRaw (zone : String) (data : Oracle) (eic : String)
    (ws : List (Nat × Nat)) : List (Key × List (String × Rat)) :=
  ws.flatMap (fun w =>
    (rawTrace (data eic w).1 (data eic w).2).map
      (fun t => ((zone, t.1), [(t.2.1, t.2.2)])))

/-- Trace form of a full run: each zone contributes its writes, and the next
zone's coverage index is read from the store those writes produce. -/
def runTrace (data : Oracle) (ws : List (Nat × Nat)) :
    List (String × String) → PStore → List (Key × List (String × Rat))
  | [], _ => []
  | zp :: zs, s =>
    let tr := zoneWrites zp.1 (get_existing s zp.1) data zp.2 ws
    tr ++ runTrace data ws zs (tr.foldl applyW s)

/-- Process one zone: build `existing` once, then sweep the windows. -/
def runZone (data : Oracle) (ws : List (Nat × Nat)) (s : PStore)
    (zp : String × String) : PStore :=
  let E := get_existing s zp.1
  ws.foldl (fun s w => windowApply zp.1 E (data zp.2 w).1 (data zp.2 w).2 s) s

end P

/-! ## Window planners

Instants are absolute minute counts (`toAbsMin`).  The `while current < now`
loops are embedded with a fuel argument of `now - current`, which the
recurrence lemmas below show is always sufficient (each iteration advances
`current` by at least one minute). -/

/-- `(current + timedelta(days=32)).replace(day=1)`: first day of the month
after `current`'s, at `current`'s time of day. -/
def nextMonthStart (t : Nat) : Nat :=
  let d := t / 1440 + 32
  let ymd := dateOfOrdinal d
  ordinalOfDate ymd.1 ymd.2.1 1 * 1440 + t % 1440

def planMonthlyGo : Nat → Nat → Nat → List (Nat × Nat)
  | 0, _, _ => []
  | fuel + 1, current, now =>
    if current < now then
      (current, min (nextMonthStart current) now) :: planMonthlyGo fuel (nextMonthStart current) now
    else []

/-- Monthly window sweep of `entseo_pipeline.py` (`window_size = 32 days`,
then `.replace(day=1)`, end clipped to `now`). -/
def planMonthly (start now : Nat) : List (Nat × Nat) :=
  planMonthlyGo (now - start) start now

def planDailyGo : Nat → Nat → Nat → List (Nat × Nat)
  | 0, _, _ => []
  | fuel + 1, current, now =>
    if current < now then
      (current, min (current + 1440) now) :: planDailyGo fuel (current + 1440) now
    else []

/-- Daily window sweep of `entseo_pipeline_time_serie.py`
(`window_size = 1 day`, end clipped to `now`). -/
def planDaily (start now : Nat) : List (Nat × Nat) :=
  planDailyGo (now - start) start now

/-- `datetime(2025, 4, 1, tzinfo=UTC)` as absolute minutes. -/
def aprilStart : Nat := toAbsMin ⟨2025, 4, 1, 0, 0, 0, true⟩

/-- `datetime(2025, 6, 1, tzinfo=UTC)` as absolute minutes. -/
def juneStart : Nat := toAbsMin ⟨2025, 6, 1, 0, 0, 0, true⟩

/-- `run` of `entseo_pipeline.py`: sweep every zone over the monthly windows
from 2025-04-01 to `now`. -/
def P.run (zones : List (String × String)) (data : P.Oracle) (now : Nat)
    (s : P.PStore) : P.PStore :=
  zones.foldl (P.runZone data (planMonthly aprilStart now)) s

/-! ## Per-day variant (`entseo_pipeline_time_serie.py`) -/

namespace T

/-- Decoded generation tuples `(timestamp, quantity, resolution)`. -/
abbrev GenData := List (String × Rat × String)

/-- Decoded price dictionary: label to `(timestamp, value, resolution)`. -/
abbrev PriceData := List (String × List (String × Rat × String))

/-- `fetch_generation` of the per-day variant (keeps the raw resolution). -/
def fetch_generation (doc : Option XElem) : Except String GenData :=
  match doc with
  | none => Except.ok []
  | some root =>
    (xfindallDesc root "TimeSeries").foldlM
      (fun acc ts =>
        match xfind ts "Period" with
        | none => Except.ok acc
        | some period => do
          let stEl ← req (xfindPath period "timeInterval" "start")
          let stTxt ← reqTxt stEl
          let st ← piso stTxt
          let resEl ← req (xfind period "resolution")
          let resTxt ← reqTxt resEl
          let interval := resInterval resTxt
          (xfindall period "Point").foldlM
            (fun acc2 pt => do
              let posEl ← req (xfind pt "position")
              let posTxt ← reqTxt posEl
              let pos ← parseInt posTxt
              let qEl ← req (xfind pt "quantity")
              let qTxt ← reqTxt qEl
              let q ← parseRat qTxt
              Except.ok (acc2 ++ [(pointTs st pos interval, q, resTxt)]))
            acc)
      []

/-- `fetch_prices` of the per-day variant: no dynamic dictionary seeding
beyond the two fixed labels, division by 10, and zero values dropped. -/
def fetch_prices (doc : Option XElem) : Except String PriceData :=
  match doc with
  | none => Except.ok [("A44_A01", []), ("A44_A07", [])]
  | some root =>
    (xfindallDesc root "TimeSeries").foldlM
      (fun results ts =>
        match xfind ts "contract_MarketAgreement.type" with
        | none => Except.ok results
        | some ctype =>
          let label := priceLabel ctype
          match xfind ts "Period" with
          | none => Except.ok results
          | some period => do
            let stEl ← req (xfindPath period "timeInterval" "start")
            let stTxt ← reqTxt stEl
            let st ← piso (stripZ stTxt)
            let resEl ← req (xfind period "resolution")
            let resTxt ← reqTxt resEl
            let interval := resInterval resTxt
            (xfindall period "Point").foldlM
              (fun results2 pt =>
                match xfind pt "position", xfind pt "price.amount" with
                | some posEl, some valEl => do
                  let posTxt ← reqTxt posEl
                  let pos ← parseInt posTxt
                  let vTxt ← reqTxt valEl
                  let v0 ← parseRat vTxt
                  let v := v0 / 10
                  if v = 0 then Except.ok results2
                  else
                    Except.ok (dictAppend results2 label (pointTs st pos interval, v, resTxt))
                | _, _ => Except.ok results2)
              results)
      [("A44_A01", []), ("A44_A07", [])]

/-- One per-timestamp record inside a day document: the timestamp, and its
label fields (`"timestamp"` itself is kept structurally as the key). -/
abbrev Bucket := List (String × List (String × Rat))

/-- `merge_series`: bucket every tuple by its raw resolution into the
two-key dictionary `{"PT15M": ..., "PT60M": ...}` — any other resolution
raises `KeyError` — and keep only non-empty buckets. -/
def merge_series (generation : GenData) (prices : PriceData) :
    Except String (List (String × Bucket)) := do
  let b ← generation.foldlM
    (fun (b : Bucket × Bucket) p =>
      if p.2.2 = "PT15M" then Except.ok (dictSet b.1 p.1 "A75_A16_B16" p.2.1, b.2)
      else if p.2.2 = "PT60M" then Except.ok (b.1, dictSet b.2 p.1 "A75_A16_B16" p.2.1)
      else Except.error "KeyError")
    (([], []) : Bucket × Bucket)
  let b ← prices.foldlM
    (fun (b : Bucket × Bucket) lp =>
      lp.2.foldlM
        (fun (b : Bucket × Bucket) p =>
          if p.2.2 = "PT15M" then Except.ok (dictSet b.1 p.1 lp.1 p.2.1, b.2)
          else if p.2.2 = "PT60M" then Except.ok (b.1, dictSet b.2 p.1 lp.1 p.2.1)
          else Except.error "KeyError")
        b)
    b
  Except.ok ((if b.1 = [] then [] else [("PT15M", b.1)]) ++
    (if b.2 = [] then [] else [("PT60M", b.2)]))

/-- Store type: day documents keyed by `(bidding_zone, date)` (the `_id`;
`bidding_zone`/`date` are also set as plain fields, always with the key's own
values, so they stay structural), holding one point-record list per
resolution field (`list(ts_map.values())` of a bucket whose records each
carry their timestamp is the bucket itself). -/
abbrev TStore := List (SDoc (String × String) String Bucket)

/-- Per-window decoded responses for the per-day variant. -/
abbrev Oracle := String → Nat × Nat → GenData × PriceData

/-- `run` of the per-day variant: for each zone and daily window, merge the
window's series and `update_one` the day document keyed by
`(zone, current.strftime("%Y-%m-%d"))` — skipped when `merged` is empty.
A `KeyError` in `merge_series` aborts the run (it is uncaught). -/
def run (zones : List (String × String)) (data : Oracle) (now : Nat)
    (s : TStore) : Except String TStore :=
  zones.foldlM
    (fun s zp =>
      (planDaily juneStart now).foldlM
        (fun s w => do
          let merged ← merge_series (data zp.2 w).1 (data zp.2 w).2
          if merged = [] then Except.ok s
          else Except.ok (upsert s (zp.1, dayKey w.1) merged))
        s)
    s

/-- The sequence of day-document upserts a run performs, independent of the
store (the per-day variant never reads the store). -/
def trace (zones : List (String × String)) (data : Oracle) (now : Nat) :
    Except String (List ((String × String) × List (String × Bucket))) :=
  zones.foldlM
    (fun acc zp =>
      (planDaily juneStart now).foldlM
        (fun acc w => do
          let merged ← merge_series (data zp.2 w).1 (data zp.2 w).2
          if merged = [] then Except.ok acc
          else Except.ok (acc ++ [((zp.1, dayKey w.1), merged)]))
        acc)
    []

end T

/-! ## Concrete-document builders (used by concrete instances) -/

def XForest.ofListX : List XElem → XForest
  | [] => .nil
  | e :: r => .cons e (XForest.ofListX r)

/-- A leaf element with a text. -/
def leafX (t s : String) : XElem := .mk t (some s) .nil

/-- An interior element with children and no text. -/
def nodeX (t : String) (cs : List XElem) : XElem := .mk t none (XForest.ofListX cs)

/-- A leaf element with no text (`.text` is `None`). -/
def emptyX (t : String) : XElem := .mk t none .nil

/-! ## Concrete upstream documents (instances used by the theorems) -/

/-- A `Point` element with a 1-based position and an amount under the given
tag (`quantity` for generation, `price.amount` for prices). -/
def pointX (amountTag pos val : String) : XElem :=
  nodeX "Point" [leafX "position" pos, leafX amountTag val]

/-- A `Period` with a `timeInterval/start`, a `resolution` and points. -/
def periodX (startStr res : String) (pts : List XElem) : XElem :=
  nodeX "Period" (nodeX "timeInterval" [leafX "start" startStr] ::
    leafX "resolution" res :: pts)

/-- A generation `TimeSeries`. -/
def genTsX (p : XElem) : XElem := nodeX "TimeSeries" [p]

/-- A price `TimeSeries` with a contract type. -/
def priceTsX (ctype : String) (p : XElem) : XElem :=
  nodeX "TimeSeries" [leafX "contract_MarketAgreement.type" ctype, p]

/-- A document root holding time series. -/
def rootX (tss : List XElem) : XElem := nodeX "GL_MarketDocument" tss

/-- Generation document: period starting `2025-06-01T00:00:00Z`, 15-minute
resolution, one point at position 5 with quantity 100. -/
def genDoc5 : XElem :=
  rootX [genTsX (periodX "2025-06-01T00:00:00Z" "PT15M" [pointX "quantity" "5" "100"])]

/-- Price document: same period start and resolution, position 5, amount 453. -/
def priceDoc5 : XElem :=
  rootX [priceTsX "A01"
    (periodX "2025-06-01T00:00:00Z" "PT15M" [pointX "price.amount" "5" "453"])]

/-- A `TimeSeries` with no `Period` child. -/
def noPeriodDoc : XElem := rootX [nodeX "TimeSeries" [leafX "curveType" "A01"]]

/-- A `Period` with a start but no `resolution` element. -/
def noResDoc : XElem :=
  rootX [genTsX (nodeX "Period"
    [nodeX "timeInterval" [leafX "start" "2025-06-01T00:00:00Z"],
     pointX "quantity" "1" "100"])]

/-- A `Period` with a resolution but no `timeInterval` element. -/
def noStartDoc : XElem :=
  rootX [genTsX (nodeX "Period" [leafX "resolution" "PT60M", pointX "quantity" "1" "100"])]

/-- Generation document whose period declares the unrecognized resolution
`PT30M`, with points at positions 1 and 2. -/
def gen30Doc : XElem :=
  rootX [genTsX (periodX "2025-06-01T00:00:00Z" "PT30M"
    [pointX "quantity" "1" "100", pointX "quantity" "2" "200"])]

end Entsoe

deriving instance DecidableEq for Except

namespace Entsoe

variable {K F V : Type} [DecidableEq K] [DecidableEq F]

/-! # Theorems

## Association lists: `setField`, `setAll`, `lookupF` -/

theorem lookupF_nil (f : F) : lookupF ([] : List (F × V)) f = none := rfl

theorem lookupF_cons (a : F) (b : V) (t : List (F × V)) (f : F) :
    lookupF ((a, b) :: t) f = if a = f then some b else lookupF t f := by
  by_cases h : a = f <;> simp [lookupF, List.find?_cons, h]

theorem setField_cons (a : F) (b : V) (t : List (F × V)) (f : F) (v : V) :
    setField ((a, b) :: t) f v =
      if a = f then (a, v) :: t else (a, b) :: setField t f v := by
  rfl

theorem lookupF_setField (d : List (F × V)) (f g : F) (v : V) :
    lookupF (setField d f v) g = if g = f then some v else lookupF d g := by
  induction d with
  | nil =>
    by_cases h : f = g
    · subst h
      simp [setField, lookupF_cons]
    · simp [setField, lookupF_cons, h, Ne.symm h]
  | cons p t ih =>
    obtain ⟨a, b⟩ := p
    rw [setField_cons]
    by_cases haf : a = f
    · subst haf
      rw [if_pos rfl, lookupF_cons, lookupF_cons]
      by_cases hag : a = g
      · rw [if_pos hag, if_pos hag.symm]
      · rw [if_neg hag, if_neg (fun h => hag h.symm), if_neg hag]
    · rw [if_neg haf, lookupF_cons, lookupF_cons, ih]
      by_cases hgf : g = f
      · rw [if_pos hgf, if_pos hgf]
        by_cases hag : a = g
        · exact absurd (hag.trans hgf) haf
        · rw [if_neg hag]
      · rw [if_neg hgf, if_neg hgf]

theorem setField_same (d : List (F × V)) (f : F) (v : V)
    (h : lookupF d f = some v) : setField d f v = d := by
  induction d with
  | nil => simp [lookupF] at h
  | cons p t ih =>
    obtain ⟨a, b⟩ := p
    rw [lookupF_cons] at h
    rw [setField_cons]
    by_cases haf : a = f
    · subst haf
      rw [if_pos rfl] at h ⊢
      obtain rfl : b = v := by simpa using h
      rfl
    · rw [if_neg haf] at h ⊢
      rw [ih h]

theorem keys_setField (d : List (F × V)) (f : F) (v : V) :
    (setField d f v).map Prod.fst =
      if f ∈ d.map Prod.fst then d.map Prod.fst else d.map Prod.fst ++ [f] := by
  induction d with
  | nil => simp [setField]
  | cons p t ih =>
    obtain ⟨a, b⟩ := p
    rw [setField_cons]
    by_cases haf : a = f
    · subst haf
      simp
    · rw [if_neg haf]
      simp only [List.map_cons, ih]
      by_cases hmem : f ∈ t.map Prod.fst
      · rw [if_pos hmem, if_pos (by simp [hmem])]
      · have hn : ¬ f ∈ (a, b).1 :: t.map Prod.fst := by
          intro hc
          rcases List.mem_cons.mp hc with h | h
          · exact haf (by simpa using h.symm)
          · exact hmem h
        rw [if_neg hmem, if_neg hn, List.cons_append]

theorem mem_keys_of_lookupF (d : List (F × V)) (f : F) (h : (lookupF d f).isSome) :
    f ∈ d.map Prod.fst := by
  induction d with
  | nil => simp [lookupF] at h
  | cons p t ih =>
    obtain ⟨a, b⟩ := p
    rw [lookupF_cons] at h
    by_cases haf : a = f
    · simp [haf]
    · rw [if_neg haf] at h
      simp [ih h]

theorem lookupF_isSome_of_mem_keys (d : List (F × V)) (f : F)
    (h : f ∈ d.map Prod.fst) : (lookupF d f).isSome := by
  induction d with
  | nil => simp at h
  | cons p t ih =>
    obtain ⟨a, b⟩ := p
    rw [lookupF_cons]
    by_cases haf : a = f
    · simp [haf]
    · simp only [List.map_cons] at h
      rcases List.mem_cons.mp h with h | h
      · exact absurd (by simpa using h.symm) haf
      · simp [if_neg haf, ih h]

theorem nodup_keys_setField (d : List (F × V)) (f : F) (v : V)
    (h : (d.map Prod.fst).Nodup) : ((setField d f v).map Prod.fst).Nodup := by
  rw [keys_setField]
  by_cases hm : f ∈ d.map Prod.fst
  · rwa [if_pos hm]
  · rw [if_neg hm, List.nodup_append]
    refine ⟨h, List.nodup_singleton f, ?_⟩
    intro a ha hb
    rw [List.mem_singleton] at hb
    subst hb
    exact hm ha

theorem setField_overwrite (d : List (F × V)) (f : F) (v0 v : V) :
    setField (setField d f v0) f v = setField d f v := by
  induction d with
  | nil => simp [setField]
  | cons p t ih =>
    obtain ⟨a, b⟩ := p
    by_cases haf : a = f
    · simp [setField_cons, haf]
    · simp [setField_cons, haf, ih]

theorem setField_append_of_not_mem (d : List (F × V)) (f : F) (v : V)
    (h : f ∉ d.map Prod.fst) : setField d f v = d ++ [(f, v)] := by
  induction d with
  | nil => simp [setField]
  | cons p t ih =>
    obtain ⟨a, b⟩ := p
    simp only [List.map_cons, List.mem_cons] at h
    push_neg at h
    rw [setField_cons, if_neg (fun hh => h.1 hh.symm), ih h.2, List.cons_append]

/-- Setting a field already present commutes with setting a different field
(the present field is replaced in place either way). -/
theorem setField_comm_of_mem (d : List (F × V)) (f g : F) (v w : V)
    (hf : f ∈ d.map Prod.fst) (h : f ≠ g) :
    setField (setField d f v) g w = setField (setField d g w) f v := by
  induction d with
  | nil => simp at hf
  | cons p t ih =>
    obtain ⟨a, b⟩ := p
    simp only [List.map_cons, List.mem_cons] at hf
    by_cases haf : a = f
    · subst haf
      simp [setField_cons, h]
    · have hf2 : f ∈ t.map Prod.fst := by
        rcases hf with hf | hf
        · exact absurd (by simpa using hf.symm) haf
        · exact hf
      by_cases hag : a = g
      · subst hag
        simp [setField_cons, haf]
      · simp [setField_cons, haf, hag, ih hf2]

theorem setAll_nil (d : List (F × V)) : setAll d [] = d := rfl

theorem setAll_cons (d : List (F × V)) (p : F × V) (fs : List (F × V)) :
    setAll d (p :: fs) = setAll (setField d p.1 p.2) fs := rfl

theorem setAll_append (d : List (F × V)) (fs gs : List (F × V)) :
    setAll d (fs ++ gs) = setAll (setAll d fs) gs := by
  simp [setAll, List.foldl_append]

/-- Setting a present field commutes past a bulk set that avoids the field. -/
theorem setAll_setField_of_mem (d : List (F × V)) (fs : List (F × V))
    (f : F) (v : V) (hf : f ∈ d.map Prod.fst) (h : f ∉ fs.map Prod.fst) :
    setAll (setField d f v) fs = setField (setAll d fs) f v := by
  induction fs generalizing d with
  | nil => simp [setAll]
  | cons p t ih =>
    obtain ⟨a, b⟩ := p
    simp only [List.map_cons, List.mem_cons] at h
    push_neg at h
    rw [setAll_cons, setAll_cons]
    have hcomm := setField_comm_of_mem d f a v b hf (fun hh => h.1 hh)
    dsimp only at hcomm ⊢
    rw [hcomm]
    refine ih _ ?_ h.2
    rw [keys_setField]
    by_cases hm : a ∈ d.map Prod.fst
    · rwa [if_pos hm]
    · rw [if_neg hm]
      exact List.mem_append_left _ hf

theorem mem_keys_setField_self (d : List (F × V)) (f : F) (v : V) :
    f ∈ (setField d f v).map Prod.fst := by
  rw [keys_setField]
  by_cases hm : f ∈ d.map Prod.fst
  · rwa [if_pos hm]
  · rw [if_neg hm]
    exact List.mem_append_right _ (by simp)

theorem setAll_setField_of_key_mem (fs : List (F × V)) (f : F) (v : V)
    (h : (fs.map Prod.fst).Nodup) (hf : f ∈ fs.map Prod.fst) :
    ∀ d : List (F × V), setAll d (setField fs f v) = setField (setAll d fs) f v := by
  induction fs with
  | nil => simp at hf
  | cons p t ih =>
    intro d
    obtain ⟨a, b⟩ := p
    simp only [List.map_cons, List.nodup_cons] at h
    by_cases haf : a = f
    · subst haf
      rw [setField_cons, if_pos rfl, setAll_cons, setAll_cons]
      dsimp only
      rw [← setField_overwrite d a b v]
      exact setAll_setField_of_mem _ _ _ _ (mem_keys_setField_self d a b) h.1
    · have hf2 : f ∈ t.map Prod.fst := by
        rcases List.mem_cons.mp hf with hh | hh
        · exact absurd (by simpa using hh.symm) haf
        · exact hh
      rw [setField_cons, if_neg haf, setAll_cons, setAll_cons]
      dsimp only
      exact ih h.2 hf2 _

theorem setAll_setField (d : List (F × V)) (fs : List (F × V)) (f : F) (v : V)
    (h : (fs.map Prod.fst).Nodup) :
    setAll d (setField fs f v) = setField (setAll d fs) f v := by
  by_cases hf : f ∈ fs.map Prod.fst
  · exact setAll_setField_of_key_mem fs f v h hf d
  · rw [setField_append_of_not_mem fs f v hf, setAll_append]
    rfl

theorem lastVal_nil (f : F) : lastVal ([] : List (F × V)) f = none := rfl

theorem lastVal_cons (a : F) (b : V) (t : List (F × V)) (f : F) :
    lastVal ((a, b) :: t) f =
      match lastVal t f with
      | some v => some v
      | none => if a = f then some b else none := rfl

theorem lastVal_append (fs gs : List (F × V)) (f : F) :
    lastVal (fs ++ gs) f =
      match lastVal gs f with
      | some v => some v
      | none => lastVal fs f := by
  induction fs with
  | nil =>
    cases h : lastVal gs f <;> simp [h, lastVal]
  | cons p t ih =>
    obtain ⟨a, b⟩ := p
    rw [List.cons_append, lastVal_cons, lastVal_cons, ih]
    cases h : lastVal gs f <;> cases h2 : lastVal t f <;> simp [h, h2]

theorem lookupF_setAll (d : List (F × V)) (fs : List (F × V)) (f : F) :
    lookupF (setAll d fs) f =
      match lastVal fs f with
      | some v => some v
      | none => lookupF d f := by
  induction fs generalizing d with
  | nil => simp [setAll, lastVal]
  | cons p t ih =>
    obtain ⟨a, b⟩ := p
    rw [setAll_cons, lastVal_cons, ih, lookupF_setField]
    cases h : lastVal t f with
    | some v => simp
    | none =>
      by_cases haf : a = f
      · subst haf
        simp
      · simp [haf, Ne.symm haf]

theorem lastVal_isSome_of_mem (fs : List (F × V)) (f : F) (v : V)
    (h : (f, v) ∈ fs) : (lastVal fs f).isSome := by
  induction fs with
  | nil => simp at h
  | cons p t ih =>
    obtain ⟨a, b⟩ := p
    rw [lastVal_cons]
    rcases List.mem_cons.mp h with h | h
    · simp only [Prod.mk.injEq] at h
      obtain ⟨rfl, rfl⟩ := h
      cases h2 : lastVal t f <;> simp
    · have := ih h
      cases h2 : lastVal t f
      · rw [h2] at this
        simp at this
      · simp

theorem keys_setAll_subset (d : List (F × V)) (fs : List (F × V)) (g : F)
    (h : g ∈ (setAll d fs).map Prod.fst) :
    g ∈ d.map Prod.fst ∨ g ∈ fs.map Prod.fst := by
  induction fs generalizing d with
  | nil =>
    rw [setAll_nil] at h
    exact Or.inl h
  | cons p t ih =>
    rw [setAll_cons] at h
    rcases ih _ h with h2 | h2
    · rw [keys_setField] at h2
      by_cases hm : p.1 ∈ d.map Prod.fst
      · rw [if_pos hm] at h2
        exact Or.inl h2
      · rw [if_neg hm] at h2
        rcases List.mem_append.mp h2 with h3 | h3
        · exact Or.inl h3
        · rw [List.mem_singleton] at h3
          subst h3
          exact Or.inr (by simp)
    · exact Or.inr (by simp [h2])

theorem keys_setAll_mono (d : List (F × V)) (fs : List (F × V)) (g : F)
    (h : g ∈ d.map Prod.fst) : g ∈ (setAll d fs).map Prod.fst := by
  induction fs generalizing d with
  | nil =>
    rwa [setAll_nil]
  | cons p t ih =>
    rw [setAll_cons]
    apply ih
    rw [keys_setField]
    by_cases hm : p.1 ∈ d.map Prod.fst
    · rwa [if_pos hm]
    · rw [if_neg hm]
      exact List.mem_append_left _ h

theorem keys_setAll_of_covered (d : List (F × V)) (fs : List (F × V))
    (h : ∀ g ∈ fs.map Prod.fst, g ∈ d.map Prod.fst) :
    (setAll d fs).map Prod.fst = d.map Prod.fst := by
  induction fs generalizing d with
  | nil => rw [setAll_nil]
  | cons p t ih =>
    rw [setAll_cons]
    have hp : p.1 ∈ d.map Prod.fst := h p.1 (by simp)
    have hk : (setField d p.1 p.2).map Prod.fst = d.map Prod.fst := by
      rw [keys_setField, if_pos hp]
    rw [ih _ (fun g hg => by rw [hk]; exact h g (by simp [hg])), hk]

theorem nodup_keys_setAll (d : List (F × V)) (fs : List (F × V))
    (h : (d.map Prod.fst).Nodup) : ((setAll d fs).map Prod.fst).Nodup := by
  induction fs generalizing d with
  | nil => rwa [setAll_nil]
  | cons p t ih =>
    rw [setAll_cons]
    exact ih _ (nodup_keys_setField _ _ _ h)

/-! ## Store lemmas: `docLookup`, `docUpdate`, `upsert` -/

theorem docLookup_nil (k : K) : docLookup ([] : List (SDoc K F V)) k = none := rfl

theorem docLookup_cons (d : SDoc K F V) (t : List (SDoc K F V)) (k : K) :
    docLookup (d :: t) k = if d.key = k then some d else docLookup t k := by
  by_cases h : d.key = k <;> simp [docLookup, List.find?_cons, h]

theorem docLookup_append (s t : List (SDoc K F V)) (k : K) :
    docLookup (s ++ t) k =
      match docLookup s k with
      | some d => some d
      | none => docLookup t k := by
  induction s with
  | nil => simp [docLookup_nil]
  | cons d r ih =>
    rw [List.cons_append, docLookup_cons, docLookup_cons]
    by_cases h : d.key = k <;> simp [h, ih]

theorem docUpdate_key_not_found (s : List (SDoc K F V)) (k : K)
    (fs : List (F × V)) (h : docLookup s k = none) : docUpdate s k fs = s := by
  induction s with
  | nil => rfl
  | cons d t ih =>
    rw [docLookup_cons] at h
    by_cases hk : d.key = k
    · rw [if_pos hk] at h
      exact Option.noConfusion h
    · rw [if_neg hk] at h
      show (if d.key = k then _ else _) = _
      rw [if_neg hk, ih h]

theorem keys_docUpdate (s : List (SDoc K F V)) (k : K) (fs : List (F × V)) :
    (docUpdate s k fs).map (fun d => d.key) = s.map (fun d => d.key) := by
  induction s with
  | nil => rfl
  | cons d t ih =>
    show (if d.key = k then _ :: t else d :: docUpdate t k fs).map _ = _
    by_cases hk : d.key = k
    · rw [if_pos hk]
      simp
    · rw [if_neg hk]
      simp [ih]

theorem docLookup_docUpdate (s : List (SDoc K F V)) (k k1 : K) (fs : List (F × V)) :
    docLookup (docUpdate s k fs) k1 =
      if k1 = k then
        (docLookup s k).map (fun d => { d with data := setAll d.data fs })
      else docLookup s k1 := by
  induction s with
  | nil =>
    by_cases h : k1 = k <;> simp [docLookup_nil, docUpdate, h]
  | cons d t ih =>
    show docLookup (if d.key = k then _ :: t else d :: docUpdate t k fs) k1 = _
    by_cases hk : d.key = k
    · by_cases h1 : k1 = k
      · subst h1
        simp [hk, docLookup_cons]
      · have hne : ¬ d.key = k1 := fun hh => h1 (hh.symm.trans hk)
        have hkk : ¬ k = k1 := fun hh => h1 hh.symm
        simp [hk, h1, hne, hkk, docLookup_cons]
    · by_cases h1 : k1 = k
      · subst h1
        simp [hk, docLookup_cons, ih]
      · simp [hk, h1, docLookup_cons, ih]

theorem docLookup_upsert (s : List (SDoc K F V)) (k k1 : K) (fs : List (F × V)) :
    docLookup (upsert s k fs) k1 =
      if k1 = k then
        some (match docLookup s k with
          | some d => { d with data := setAll d.data fs }
          | none => ⟨k, setAll [] fs⟩)
      else docLookup s k1 := by
  rw [upsert]
  cases h : docLookup s k with
  | some d =>
    rw [docLookup_docUpdate, h]
    by_cases h1 : k1 = k <;> simp [h1]
  | none =>
    rw [docLookup_append]
    by_cases h1 : k1 = k
    · subst h1
      rw [h, docLookup_cons, if_pos rfl, if_pos rfl]
    · rw [if_neg h1]
      cases h2 : docLookup s k1 with
      | some d => simp
      | none =>
        rw [docLookup_cons, docLookup_nil, if_neg (fun hh : k = k1 => h1 hh.symm)]

theorem keys_upsert (s : List (SDoc K F V)) (k : K) (fs : List (F × V)) :
    (upsert s k fs).map (fun d => d.key) =
      if (docLookup s k).isSome then s.map (fun d => d.key)
      else s.map (fun d => d.key) ++ [k] := by
  rw [upsert]
  cases h : docLookup s k with
  | some d => rw [keys_docUpdate]; simp
  | none => simp

theorem countKey_nil (k : K) : countKey ([] : List (SDoc K F V)) k = 0 := rfl

theorem countKey_pos_iff (s : List (SDoc K F V)) (k : K) :
    0 < countKey s k ↔ (docLookup s k).isSome := by
  induction s with
  | nil => simp [countKey_nil, docLookup_nil]
  | cons d t ih =>
    rw [docLookup_cons]
    by_cases hk : d.key = k
    · simp [countKey, hk]
    · rw [if_neg hk]
      show 0 < (List.filter _ (d :: t)).length ↔ _
      rw [List.filter_cons]
      rw [if_neg (by simpa using hk)]
      exact ih

theorem countKey_docUpdate (s : List (SDoc K F V)) (k k1 : K) (fs : List (F × V)) :
    countKey (docUpdate s k fs) k1 = countKey s k1 := by
  induction s with
  | nil => rfl
  | cons d t ih =>
    show countKey (if d.key = k then _ :: t else d :: docUpdate t k fs) k1 = _
    by_cases hk : d.key = k
    · rw [if_pos hk]
      unfold countKey
      rw [List.filter_cons, List.filter_cons]
      by_cases h1 : d.key = k1
      · rw [if_pos (by simpa using h1), if_pos (by simpa using h1)]
        simp
      · rw [if_neg (by simpa using h1), if_neg (by simpa using h1)]
    · rw [if_neg hk]
      unfold countKey
      rw [List.filter_cons, List.filter_cons]
      by_cases h1 : d.key = k1
      · rw [if_pos (by simpa using h1), if_pos (by simpa using h1)]
        simpa [countKey] using ih
      · rw [if_neg (by simpa using h1), if_neg (by simpa using h1)]
        simpa [countKey] using ih

theorem countKey_append (s t : List (SDoc K F V)) (k : K) :
    countKey (s ++ t) k = countKey s k + countKey t k := by
  simp [countKey, List.filter_append]

theorem countKey_upsert (s : List (SDoc K F V)) (k k1 : K) (fs : List (F × V)) :
    countKey (upsert s k fs) k1 =
      if k1 = k ∧ countKey s k = 0 then 1 else countKey s k1 := by
  rw [upsert]
  cases h : docLookup s k with
  | some d =>
    rw [countKey_docUpdate]
    have : ¬ countKey s k = 0 := by
      have := (countKey_pos_iff s k).mpr (by simp [h])
      omega
    simp [this]
  | none =>
    have h0 : countKey s k = 0 := by
      by_contra hc
      have := (countKey_pos_iff s k).mp (by omega)
      rw [h] at this
      simp at this
    rw [countKey_append]
    by_cases h1 : k1 = k
    · subst h1
      rw [if_pos ⟨rfl, h0⟩, h0]
      simp [countKey, List.filter_cons]
    · rw [if_neg (fun hh => h1 hh.1)]
      have : ¬ (⟨k, setAll [] fs⟩ : SDoc K F V).key = k1 := fun hh : k = k1 => h1 hh.symm
      simp [countKey, List.filter_cons, this]


theorem docLookup_none_iff (s : List (SDoc K F V)) (k : K) :
    docLookup s k = none ↔ k ∉ s.map (fun d => d.key) := by
  induction s with
  | nil => simp [docLookup_nil]
  | cons d t ih =>
    rw [docLookup_cons]
    by_cases hk : d.key = k
    · simp [hk]
    · rw [if_neg hk, ih]
      constructor
      · intro h
        simp only [List.map_cons, List.mem_cons]
        push_neg
        exact ⟨fun hh => hk hh.symm, h⟩
      · intro h
        simp only [List.map_cons, List.mem_cons] at h
        push_neg at h
        exact h.2

theorem docLookup_mem (s : List (SDoc K F V)) (k : K) (d : SDoc K F V)
    (h : docLookup s k = some d) : d ∈ s :=
  List.mem_of_find?_eq_some h

theorem mem_docUpdate (s : List (SDoc K F V)) (k : K) (fs : List (F × V))
    (d : SDoc K F V) (h : d ∈ docUpdate s k fs) :
    d ∈ s ∨ ∃ d0 ∈ s, d = { d0 with data := setAll d0.data fs } := by
  induction s with
  | nil => simp [docUpdate] at h
  | cons e t ih =>
    have he : docUpdate (e :: t) k fs =
        if e.key = k then { e with data := setAll e.data fs } :: t
        else e :: docUpdate t k fs := rfl
    rw [he] at h
    by_cases hek : e.key = k
    · rw [if_pos hek] at h
      rcases List.mem_cons.mp h with h | h
      · exact Or.inr ⟨e, by simp, h⟩
      · exact Or.inl (by simp [h])
    · rw [if_neg hek] at h
      rcases List.mem_cons.mp h with h | h
      · exact Or.inl (by simp [h])
      · rcases ih h with h2 | ⟨d0, hd0, hde⟩
        · exact Or.inl (by simp [h2])
        · exact Or.inr ⟨d0, by simp [hd0], hde⟩

theorem WFStore_upsert (s : List (SDoc K F V)) (k : K) (fs : List (F × V))
    (h : WFStore s) : WFStore (upsert s k fs) := by
  obtain ⟨hk, hd⟩ := h
  constructor
  · rw [keys_upsert]
    cases hl : docLookup s k with
    | some d => simpa
    | none =>
      have hnk : k ∉ s.map (fun d => d.key) := (docLookup_none_iff s k).mp hl
      rw [if_neg (by simp), List.nodup_append]
      refine ⟨hk, List.nodup_singleton k, ?_⟩
      intro a ha hb
      rw [List.mem_singleton] at hb
      subst hb
      exact hnk ha
  · intro d hdm
    rw [upsert] at hdm
    cases hl : docLookup s k with
    | some d0 =>
      rw [hl] at hdm
      rcases mem_docUpdate s k fs d hdm with hm | ⟨e, hem, rfl⟩
      · exact hd d hm
      · exact nodup_keys_setAll _ _ (hd e hem)
    | none =>
      rw [hl] at hdm
      rcases List.mem_append.mp hdm with hdm | hdm
      · exact hd d hdm
      · rw [List.mem_singleton] at hdm
        subst hdm
        exact nodup_keys_setAll _ _ (by simp)

theorem docExists_applyW (s : List (SDoc K F V)) (w : K × List (F × V)) (k : K)
    (h : (docLookup s k).isSome) : (docLookup (applyW s w) k).isSome := by
  rw [applyW, docLookup_upsert]
  by_cases h1 : k = w.1 <;> simp [h1, h]

theorem fieldVal_applyW_mono (s : List (SDoc K F V)) (w : K × List (F × V))
    (k : K) (f : F) (h : (fieldVal s k f).isSome) :
    (fieldVal (applyW s w) k f).isSome := by
  rw [fieldVal, applyW, docLookup_upsert]
  by_cases h1 : k = w.1
  · subst h1
    rw [if_pos rfl]
    cases hl : docLookup s w.1 with
    | none => rw [fieldVal, hl] at h; simp at h
    | some d =>
      rw [fieldVal, hl] at h
      simp only [Option.some_bind] at h
      simp only [Option.some_bind]
      rw [lookupF_setAll]
      cases h2 : lastVal w.2 f <;> simp [h]
  · rw [if_neg h1]
    exact h

theorem fieldWrites_nil (k : K) :
    fieldWrites ([] : List (K × List (F × V))) k = [] := rfl

theorem fieldWrites_cons (w : K × List (F × V)) (ws : List (K × List (F × V))) (k : K) :
    fieldWrites (w :: ws) k =
      (if w.1 = k then w.2 else []) ++ fieldWrites ws k := by
  unfold fieldWrites
  rw [List.filter_cons]
  by_cases h : w.1 = k
  · rw [if_pos (by simpa using h), if_pos h]
    simp
  · rw [if_neg (by simpa using h), if_neg h]
    simp

theorem fieldWrites_eq_nil (ws : List (K × List (F × V))) (k : K)
    (h : ∀ w ∈ ws, w.1 ≠ k) : fieldWrites ws k = [] := by
  induction ws with
  | nil => rfl
  | cons w t ih =>
    rw [fieldWrites_cons, if_neg (h w (by simp)), List.nil_append]
    exact ih (fun x hx => h x (by simp [hx]))

/-- Documents after a sequence of upserts: existing documents accumulate all
field writes at their key; a key absent from the store is created by its
first write and then accumulates the rest. -/
theorem docLookup_foldl_applyW [DecidableEq V] (ws : List (K × List (F × V)))
    (hne : ∀ w ∈ ws, w.2 ≠ []) :
    ∀ (s : List (SDoc K F V)) (k : K),
      docLookup (ws.foldl applyW s) k =
        match docLookup s k with
        | some d => some { d with data := setAll d.data (fieldWrites ws k) }
        | none =>
          if fieldWrites ws k = [] then none
          else some ⟨k, setAll [] (fieldWrites ws k)⟩ := by
  induction ws with
  | nil =>
    intro s k
    rw [List.foldl_nil, fieldWrites_nil]
    cases h : docLookup s k <;> simp [setAll_nil]
  | cons w t ih =>
    intro s k
    rw [List.foldl_cons, ih (fun x hx => hne x (by simp [hx])), fieldWrites_cons]
    by_cases hk : w.1 = k
    · rw [if_pos hk]
      subst hk
      rw [applyW, docLookup_upsert, if_pos rfl]
      cases h : docLookup s w.1 with
      | some d => simp [setAll_append]
      | none =>
        have hw : w.2 ≠ [] := hne w (by simp)
        have hcat : w.2 ++ fieldWrites t w.1 ≠ [] := by
          intro hc
          exact hw (List.append_eq_nil.mp hc).1
        simp only
        rw [if_neg hcat, setAll_append]
    · rw [if_neg hk, List.nil_append]
      rw [applyW, docLookup_upsert, if_neg (fun hh : k = w.1 => hk hh.symm)]

theorem keys_foldl_applyW (ws : List (K × List (F × V))) :
    ∀ s : List (SDoc K F V), (∀ w ∈ ws, (docLookup s w.1).isSome) →
      (ws.foldl applyW s).map (fun d => d.key) = s.map (fun d => d.key) := by
  induction ws with
  | nil => intro s _; rfl
  | cons w t ih =>
    intro s hex
    rw [List.foldl_cons]
    rw [ih _ (fun x hx => docExists_applyW s w x.1 (hex x (by simp [hx])))]
    rw [applyW, keys_upsert, if_pos (hex w (by simp))]

theorem WFStore_foldl (ws : List (K × List (F × V))) :
    ∀ s : List (SDoc K F V), WFStore s → WFStore (ws.foldl applyW s) := by
  induction ws with
  | nil => intro s h; exact h
  | cons w t ih =>
    intro s h
    exact ih _ (WFStore_upsert _ _ _ h)

/-- Association-list extensionality under distinct keys. -/
theorem assoc_ext (d : List (F × V)) :
    ∀ e : List (F × V), (d.map Prod.fst).Nodup →
      d.map Prod.fst = e.map Prod.fst →
      (∀ f, lookupF d f = lookupF e f) → d = e := by
  induction d with
  | nil =>
    intro e _ hkeys _
    cases e with
    | nil => rfl
    | cons p t => simp at hkeys
  | cons p t ih =>
    intro e hd hkeys hlook
    cases e with
    | nil => simp at hkeys
    | cons p2 t2 =>
      obtain ⟨a, b⟩ := p
      obtain ⟨a2, b2⟩ := p2
      simp only [List.map_cons, List.cons.injEq] at hkeys
      obtain ⟨ha, htk⟩ := hkeys
      subst ha
      simp only [List.map_cons, List.nodup_cons] at hd
      have hb : b = b2 := by
        have := hlook a
        rw [lookupF_cons, lookupF_cons, if_pos rfl, if_pos rfl] at this
        simpa using this
      subst hb
      have ht : t = t2 := by
        refine ih t2 hd.2 htk ?_
        intro f
        by_cases hfa : a = f
        · subst hfa
          have h1 : lookupF t a = none := by
            cases h2 : lookupF t a with
            | none => rfl
            | some v => exact absurd (mem_keys_of_lookupF t a (by simp [h2])) hd.1
          have h2 : lookupF t2 a = none := by
            cases h3 : lookupF t2 a with
            | none => rfl
            | some v =>
              have : a ∈ t2.map Prod.fst := mem_keys_of_lookupF t2 a (by simp [h3])
              rw [← htk] at this
              exact absurd this hd.1
          rw [h1, h2]
        · have := hlook f
          rwa [lookupF_cons, lookupF_cons, if_neg hfa, if_neg hfa] at this
      rw [ht]

/-- Store extensionality under distinct document keys. -/
theorem store_ext (s : List (SDoc K F V)) :
    ∀ t : List (SDoc K F V), (s.map (fun d => d.key)).Nodup →
      s.map (fun d => d.key) = t.map (fun d => d.key) →
      (∀ k, docLookup s k = docLookup t k) → s = t := by
  induction s with
  | nil =>
    intro t _ hkeys _
    cases t with
    | nil => rfl
    | cons d r => simp at hkeys
  | cons d r ih =>
    intro t hs hkeys hlook
    cases t with
    | nil => simp at hkeys
    | cons d2 r2 =>
      simp only [List.map_cons, List.cons.injEq] at hkeys
      obtain ⟨ha, htk⟩ := hkeys
      simp only [List.map_cons, List.nodup_cons] at hs
      have hdd : d = d2 := by
        have := hlook d.key
        rw [docLookup_cons, docLookup_cons, if_pos rfl, if_pos ha.symm] at this
        simpa using this
      subst hdd
      have hr : r = r2 := by
        refine ih r2 hs.2 htk ?_
        intro k
        by_cases hkd : k = d.key
        · rw [hkd]
          have h1 : docLookup r d.key = none := (docLookup_none_iff r d.key).mpr hs.1
          have h2 : docLookup r2 d.key = none := by
            rw [docLookup_none_iff, ← htk]
            exact hs.1
          rw [h1, h2]
        · have := hlook k
          rwa [docLookup_cons, docLookup_cons, if_neg (fun hh => hkd hh.symm),
            if_neg (fun hh => hkd hh.symm)] at this
      rw [hr]

theorem mem_keys_setAll_right (d : List (F × V)) (fs : List (F × V)) (g : F)
    (h : g ∈ fs.map Prod.fst) : g ∈ (setAll d fs).map Prod.fst := by
  induction fs generalizing d with
  | nil => simp at h
  | cons p t ih =>
    rw [setAll_cons]
    rcases List.mem_cons.mp h with h | h
    · rw [h]
      exact keys_setAll_mono _ _ _ (mem_keys_setField_self d p.1 p.2)
    · exact ih _ h

theorem mem_fieldWrites (ws : List (K × List (F × V))) (k : K)
    (fs : List (F × V)) (p : F × V) (hw : (k, fs) ∈ ws) (hp : p ∈ fs) :
    p ∈ fieldWrites ws k := by
  induction ws with
  | nil => simp at hw
  | cons w t ih =>
    rw [fieldWrites_cons]
    rcases List.mem_cons.mp hw with hw | hw
    · rw [← hw]
      simp [hp]
    · rcases List.mem_append.mp (List.mem_append_right _ (ih hw)) with h | h
      · exact List.mem_append_left _ h
      · exact List.mem_append_right _ h

theorem fieldWrites_ne_nil (ws : List (K × List (F × V))) (w : K × List (F × V))
    (hw : w ∈ ws) (hne : w.2 ≠ []) : fieldWrites ws w.1 ≠ [] := by
  obtain ⟨p, hp⟩ := List.exists_mem_of_ne_nil w.2 hne
  have : p ∈ fieldWrites ws w.1 := mem_fieldWrites ws w.1 w.2 p (by simpa using hw) hp
  intro hc
  rw [hc] at this
  simp at this

/-- Absorption: replaying writes whose per-field last values already agree
with the store, at keys that already exist, leaves the store unchanged. -/
theorem foldl_applyW_absorb [DecidableEq V] (s1 : List (SDoc K F V))
    (vs : List (K × List (F × V)))
    (hwf : WFStore s1)
    (hne : ∀ w ∈ vs, w.2 ≠ [])
    (hex : ∀ w ∈ vs, (docLookup s1 w.1).isSome)
    (hval : ∀ k f v, lastVal (fieldWrites vs k) f = some v → fieldVal s1 k f = some v) :
    vs.foldl applyW s1 = s1 := by
  have hkeys : (vs.foldl applyW s1).map (fun d => d.key) = s1.map (fun d => d.key) :=
    keys_foldl_applyW vs s1 hex
  apply store_ext _ s1 (by rw [hkeys]; exact hwf.1) hkeys
  intro k
  rw [docLookup_foldl_applyW vs hne s1 k]
  cases hl : docLookup s1 k with
  | none =>
    have hfw : fieldWrites vs k = [] := by
      apply fieldWrites_eq_nil
      intro w hw hkk
      have := hex w hw
      rw [hkk, hl] at this
      simp at this
    rw [hfw]
    simp
  | some d =>
    have hdn : (d.data.map Prod.fst).Nodup := hwf.2 d (docLookup_mem s1 k d hl)
    have hdata : setAll d.data (fieldWrites vs k) = d.data := by
      apply assoc_ext _ _ (nodup_keys_setAll _ _ hdn)
      · apply keys_setAll_of_covered
        intro g hg
        rw [List.mem_map] at hg
        obtain ⟨p, hp, rfl⟩ := hg
        have hsome : (lastVal (fieldWrites vs k) p.1).isSome :=
          lastVal_isSome_of_mem _ p.1 p.2 (by simpa using hp)
        obtain ⟨v, hv⟩ := Option.isSome_iff_exists.mp hsome
        have := hval k p.1 v hv
        rw [fieldVal, hl, Option.some_bind] at this
        exact mem_keys_of_lookupF _ _ (by simp [this])
      · intro f
        rw [lookupF_setAll]
        cases h2 : lastVal (fieldWrites vs k) f with
        | none => rfl
        | some v =>
          have := hval k f v h2
          rw [fieldVal, hl, Option.some_bind] at this
          exact this.symm
    simp [hdata]

/-- Values in the store after a fold of upserts: the last write wins. -/
theorem fieldVal_foldl_applyW [DecidableEq V] (s0 : List (SDoc K F V))
    (ws : List (K × List (F × V))) (hne : ∀ w ∈ ws, w.2 ≠ [])
    (k : K) (f : F) (v : V)
    (h : lastVal (fieldWrites ws k) f = some v) :
    fieldVal (ws.foldl applyW s0) k f = some v := by
  rw [fieldVal, docLookup_foldl_applyW ws hne s0 k]
  have hfw : fieldWrites ws k ≠ [] := by
    intro hc
    rw [hc] at h
    simp [lastVal] at h
  cases hl : docLookup s0 k with
  | some d =>
    rw [Option.some_bind]
    show lookupF (setAll d.data (fieldWrites ws k)) f = some v
    rw [lookupF_setAll, h]
  | none =>
    rw [if_neg hfw, Option.some_bind]
    show lookupF (setAll [] (fieldWrites ws k)) f = some v
    rw [lookupF_setAll, h]

/-- Replaying a full write sequence on its own result is a no-op. -/
theorem foldl_applyW_replay [DecidableEq V] (s0 : List (SDoc K F V))
    (ws : List (K × List (F × V))) (hwf0 : WFStore s0)
    (hne : ∀ w ∈ ws, w.2 ≠ []) :
    ws.foldl applyW (ws.foldl applyW s0) = ws.foldl applyW s0 := by
  apply foldl_applyW_absorb _ _ (WFStore_foldl ws s0 hwf0) hne
  · intro w hw
    rw [docLookup_foldl_applyW ws hne s0 w.1]
    cases hl : docLookup s0 w.1 with
    | some d => simp
    | none =>
      rw [if_neg (fieldWrites_ne_nil ws w hw (hne w hw))]
      simp
  · intro k f v h
    exact fieldVal_foldl_applyW s0 ws hne k f v h

theorem lastVal_filter (l : List (F × V)) (q : F → Bool) (f : F) :
    lastVal (l.filter (fun p => q p.1)) f =
      if q f then lastVal l f else none := by
  induction l with
  | nil => by_cases h : q f <;> simp [lastVal, h]
  | cons p t ih =>
    obtain ⟨a, b⟩ := p
    rw [List.filter_cons]
    by_cases hq : q a
    · rw [if_pos (by simpa using hq), lastVal_cons, ih]
      by_cases h : q f
      · rw [if_pos h, if_pos h, lastVal_cons]
      · rw [if_neg h, if_neg h]
        have haf : ¬ a = f := fun hh => h (hh ▸ hq)
        simp [haf]
    · rw [if_neg (by simpa using hq), ih]
      by_cases h : q f
      · rw [if_pos h, if_pos h, lastVal_cons]
        have haf : ¬ a = f := fun hh => hq (hh.symm ▸ h)
        cases h2 : lastVal t f
        · simp [haf]
        · simp
      · rw [if_neg h, if_neg h]

theorem fieldWrites_filter_singleton (ws : List (K × List (F × V)))
    (hsing : ∀ w ∈ ws, ∃ f v, w.2 = [(f, v)]) (q : K → F → Bool) (k : K) :
    fieldWrites (ws.filter (fun w => w.2.all (fun p => q w.1 p.1))) k =
      (fieldWrites ws k).filter (fun p => q k p.1) := by
  induction ws with
  | nil => rfl
  | cons w t ih =>
    have iht := ih (fun x hx => hsing x (by simp [hx]))
    obtain ⟨f, v, hw2⟩ := hsing w (by simp)
    rw [List.filter_cons, fieldWrites_cons]
    by_cases hk : w.1 = k
    · rw [if_pos hk, hw2]
      by_cases hq : q w.1 f
      · rw [if_pos (by simp [hw2, hq]), fieldWrites_cons, if_pos hk, hw2, iht]
        simp only [List.cons_append, List.nil_append, List.filter_cons]
        rw [if_pos (by simpa [hk] using hq)]
      · rw [if_neg (by simp [hw2, hq]), iht]
        simp only [List.cons_append, List.nil_append, List.filter_cons]
        rw [if_neg (by simpa [hk] using hq)]
    · rw [if_neg hk, List.nil_append]
      by_cases hq : q w.1 f
      · rw [if_pos (by simp [hw2, hq]), fieldWrites_cons, if_neg hk, List.nil_append, iht]
      · rw [if_neg (by simp [hw2, hq]), iht]

/-- Replaying, on the result of a write sequence of single-field upserts,
only those writes whose (key, field) pair a predicate keeps, is a no-op. -/
theorem foldl_applyW_replay_filter [DecidableEq V] (s0 : List (SDoc K F V))
    (ws : List (K × List (F × V))) (hwf0 : WFStore s0)
    (hsing : ∀ w ∈ ws, ∃ f v, w.2 = [(f, v)]) (q : K → F → Bool) :
    (ws.filter (fun w => w.2.all (fun p => q w.1 p.1))).foldl applyW
        (ws.foldl applyW s0) =
      ws.foldl applyW s0 := by
  have hne : ∀ w ∈ ws, w.2 ≠ [] := by
    intro w hw
    obtain ⟨f, v, h2⟩ := hsing w hw
    simp [h2]
  apply foldl_applyW_absorb _ _ (WFStore_foldl ws s0 hwf0)
  · intro w hw
    exact hne w (List.mem_of_mem_filter hw)
  · intro w hw
    have hwm := List.mem_of_mem_filter hw
    rw [docLookup_foldl_applyW ws hne s0 w.1]
    cases hl : docLookup s0 w.1 with
    | some d => simp
    | none =>
      rw [if_neg (fieldWrites_ne_nil ws w hwm (hne w hwm))]
      simp
  · intro k f v h
    rw [fieldWrites_filter_singleton ws hsing q k, lastVal_filter] at h
    by_cases hq : q k f
    · rw [if_pos hq] at h
      exact fieldVal_foldl_applyW s0 ws hne k f v h
    · rw [if_neg hq] at h
      simp at h

/-! ## Dictionary-merge versus single-field-trace equivalence

`run` builds a per-timestamp dictionary (`merged`) and then bulk-upserts its
records; the lemmas below show this equals folding the visited
`(timestamp, label, value)` triples directly as single-field upserts, which
connects `run` to the replay machinery above. -/

theorem upsert_cons_ne (d : SDoc K F V) (t : List (SDoc K F V)) (k : K)
    (fs : List (F × V)) (h : ¬ d.key = k) :
    upsert (d :: t) k fs = d :: upsert t k fs := by
  rw [upsert, upsert, docLookup_cons, if_neg h]
  cases hl : docLookup t k with
  | some e =>
    show docUpdate (d :: t) k fs = _
    show (if d.key = k then _ else d :: docUpdate t k fs) = _
    rw [if_neg h]
  | none => rfl

theorem upsert_cons_eq (d : SDoc K F V) (t : List (SDoc K F V)) (k : K)
    (fs : List (F × V)) (h : d.key = k) :
    upsert (d :: t) k fs = { d with data := setAll d.data fs } :: t := by
  rw [upsert, docLookup_cons, if_pos h]
  show (if d.key = k then _ else _) = _
  rw [if_pos h]

theorem setAll_singleton (d : List (F × V)) (l : F) (v : V) :
    setAll d [(l, v)] = setField d l v := rfl

/-- Upserting fields and then one more field equals upserting the
field-extended document, when the document's fields are distinct. -/
theorem upsert_setField (s : List (SDoc K F V)) (k : K) (fs : List (F × V))
    (l : F) (v : V) (h : (fs.map Prod.fst).Nodup) :
    upsert s k (setField fs l v) = upsert (upsert s k fs) k [(l, v)] := by
  induction s with
  | nil =>
    show [(⟨k, setAll [] (setField fs l v)⟩ : SDoc K F V)] =
      upsert [(⟨k, setAll [] fs⟩ : SDoc K F V)] k [(l, v)]
    rw [upsert_cons_eq _ _ _ _ rfl]
    rw [setAll_singleton, setAll_setField _ _ _ _ h]
  | cons d t ih =>
    by_cases hk : d.key = k
    · rw [upsert_cons_eq d t k (setField fs l v) hk,
        upsert_cons_eq d t k fs hk,
        upsert_cons_eq { d with data := setAll d.data fs } t k [(l, v)] hk,
        setAll_singleton, setAll_setField _ _ _ _ h]
    · rw [upsert_cons_ne d t k (setField fs l v) hk,
        upsert_cons_ne d t k fs hk,
        upsert_cons_ne d (upsert t k fs) k [(l, v)] hk, ih]

/-- Upserts at distinct keys commute when the first key's document exists. -/
theorem upsert_comm (s : List (SDoc K F V)) (k1 k2 : K)
    (fs1 fs2 : List (F × V)) (hne : k1 ≠ k2)
    (hex : (docLookup s k1).isSome) :
    upsert (upsert s k1 fs1) k2 fs2 = upsert (upsert s k2 fs2) k1 fs1 := by
  induction s with
  | nil => simp [docLookup_nil] at hex
  | cons d t ih =>
    by_cases h1 : d.key = k1
    · have h2 : ¬ d.key = k2 := fun hh => hne (h1 ▸ hh ▸ rfl)
      rw [upsert_cons_eq d t k1 fs1 h1,
        upsert_cons_ne { d with data := setAll d.data fs1 } t k2 fs2 h2,
        upsert_cons_ne d t k2 fs2 h2,
        upsert_cons_eq d (upsert t k2 fs2) k1 fs1 h1]
    · rw [docLookup_cons, if_neg h1] at hex
      by_cases h2 : d.key = k2
      · rw [upsert_cons_ne d t k1 fs1 h1,
          upsert_cons_eq d (upsert t k1 fs1) k2 fs2 h2,
          upsert_cons_eq d t k2 fs2 h2,
          upsert_cons_ne { d with data := setAll d.data fs2 } t k1 fs1 h1]
      · rw [upsert_cons_ne d t k1 fs1 h1,
          upsert_cons_ne d (upsert t k1 fs1) k2 fs2 h2,
          upsert_cons_ne d t k2 fs2 h2,
          upsert_cons_ne d (upsert t k2 fs2) k1 fs1 h1, ih hex]

variable {A : Type} [DecidableEq A]

/-- Bulk-upsert a dictionary's records in order, keys built by `kf`. -/
def recsUpsert (kf : A → K) (s : List (SDoc K F V))
    (d : List (A × List (F × V))) : List (SDoc K F V) :=
  d.foldl (fun s r => upsert s (kf r.1) r.2) s

theorem recsUpsert_nil (kf : A → K) (s : List (SDoc K F V)) :
    recsUpsert kf s [] = s := rfl

theorem recsUpsert_cons (kf : A → K) (s : List (SDoc K F V))
    (r : A × List (F × V)) (d : List (A × List (F × V))) :
    recsUpsert kf s (r :: d) = recsUpsert kf (upsert s (kf r.1) r.2) d := rfl

theorem recsUpsert_append (kf : A → K) (s : List (SDoc K F V))
    (d e : List (A × List (F × V))) :
    recsUpsert kf s (d ++ e) = recsUpsert kf (recsUpsert kf s d) e := by
  simp [recsUpsert, List.foldl_append]

theorem docExists_recsUpsert (kf : A → K) (s : List (SDoc K F V))
    (d : List (A × List (F × V))) (k : K) (hex : (docLookup s k).isSome) :
    (docLookup (recsUpsert kf s d) k).isSome := by
  induction d generalizing s with
  | nil => exact hex
  | cons r t ih =>
    rw [recsUpsert_cons]
    exact ih _ (docExists_applyW s (kf r.1, r.2) k hex)

/-- A later single upsert at an existing key not named by the dictionary
commutes out of the dictionary's bulk-upsert. -/
theorem recsUpsert_upsert_comm (kf : A → K) (d : List (A × List (F × V)))
    (hinj : Function.Injective kf) (a : A) (gs : List (F × V))
    (hnotin : a ∉ d.map Prod.fst) :
    ∀ s : List (SDoc K F V), (docLookup s (kf a)).isSome →
      recsUpsert kf (upsert s (kf a) gs) d = upsert (recsUpsert kf s d) (kf a) gs := by
  induction d with
  | nil => intro s _; rfl
  | cons r t ih =>
    intro s hex
    simp only [List.map_cons, List.mem_cons] at hnotin
    push_neg at hnotin
    rw [recsUpsert_cons, recsUpsert_cons]
    rw [upsert_comm s (kf a) (kf r.1) gs r.2 (fun hh => hnotin.1 (hinj hh)) hex]
    exact ih hnotin.2 _ (docExists_applyW s (kf r.1, r.2) (kf a) hex)

/-- One dictionary field-insertion, followed by the bulk-upsert, equals the
bulk-upsert of the original dictionary followed by the single-field upsert. -/
theorem recsUpsert_dictSet (kf : A → K) (hinj : Function.Injective kf)
    (d : List (A × List (F × V))) (ts : A) (l : F) (v : V)
    (hwf : (d.map Prod.fst).Nodup ∧ ∀ e ∈ d, (e.2.map Prod.fst).Nodup) :
    ∀ s : List (SDoc K F V),
      recsUpsert kf s (dictSet d ts l v) =
        upsert (recsUpsert kf s d) (kf ts) [(l, v)] := by
  induction d with
  | nil =>
    intro s
    show recsUpsert kf s [(ts, [(l, v)])] = _
    rw [recsUpsert_cons, recsUpsert_nil, recsUpsert_nil]
  | cons r t ih =>
    intro s
    obtain ⟨a, fs0⟩ := r
    simp only [List.map_cons, List.nodup_cons] at hwf
    by_cases hat : a = ts
    · subst hat
      have hset : dictSet ((a, fs0) :: t) a l v = (a, setField fs0 l v) :: t := by
        unfold dictSet
        rw [setField_cons, if_pos rfl]
        have : lookupF ((a, fs0) :: t) a = some fs0 := by
          rw [lookupF_cons, if_pos rfl]
        rw [this]
        rfl
      rw [hset, recsUpsert_cons, recsUpsert_cons]
      dsimp only
      have hfs0 : (fs0.map Prod.fst).Nodup := hwf.2 (a, fs0) (by simp)
      rw [upsert_setField s (kf a) fs0 l v hfs0]
      refine recsUpsert_upsert_comm kf t hinj a [(l, v)] hwf.1.1 _ ?_
      rw [docLookup_upsert, if_pos rfl]
      simp
    · have hset : dictSet ((a, fs0) :: t) ts l v = (a, fs0) :: dictSet t ts l v := by
        unfold dictSet
        rw [setField_cons, if_neg hat]
        have : lookupF ((a, fs0) :: t) ts = lookupF t ts := by
          rw [lookupF_cons, if_neg hat]
        rw [this]
      rw [hset, recsUpsert_cons, recsUpsert_cons]
      exact ih ⟨hwf.1.2, fun e he => hwf.2 e (by simp [he])⟩ _

theorem lookupF_mem (d : List (F × V)) (f : F) (v : V)
    (h : lookupF d f = some v) : (f, v) ∈ d := by
  induction d with
  | nil => simp [lookupF] at h
  | cons p t ih =>
    obtain ⟨a, b⟩ := p
    rw [lookupF_cons] at h
    by_cases haf : a = f
    · rw [if_pos haf] at h
      obtain rfl : b = v := by simpa using h
      rw [haf]
      simp
    · rw [if_neg haf] at h
      simp [ih h]

theorem mem_setField (d : List (F × V)) (a : F) (v : V) (e : F × V)
    (h : e ∈ setField d a v) : e ∈ d ∨ e = (a, v) := by
  induction d with
  | nil =>
    simp [setField] at h
    simp [h]
  | cons p t ih =>
    obtain ⟨b, c⟩ := p
    rw [setField_cons] at h
    by_cases hba : b = a
    · rw [if_pos hba] at h
      rcases List.mem_cons.mp h with h | h
      · right
        rw [h, hba]
      · left
        simp [h]
    · rw [if_neg hba] at h
      rcases List.mem_cons.mp h with h | h
      · left
        simp [h]
      · rcases ih h with h2 | h2
        · left
          simp [h2]
        · right
          exact h2

theorem dictWF_dictSet (d : List (A × List (F × V))) (ts : A) (l : F) (v : V)
    (hwf : (d.map Prod.fst).Nodup ∧ ∀ e ∈ d, (e.2.map Prod.fst).Nodup) :
    ((dictSet d ts l v).map Prod.fst).Nodup ∧
      ∀ e ∈ dictSet d ts l v, (e.2.map Prod.fst).Nodup := by
  constructor
  · exact nodup_keys_setField _ _ _ hwf.1
  · intro e he
    rcases mem_setField _ _ _ _ he with h | h
    · exact hwf.2 e h
    · subst h
      apply nodup_keys_setField
      cases hl : lookupF d ts with
      | none => simp
      | some fs0 =>
        have := hwf.2 (ts, fs0) (lookupF_mem d ts fs0 hl)
        simpa [hl] using this

/-- Building a dictionary from a visit trace and bulk-upserting its records
equals folding the trace as single-field upserts directly. -/
theorem recsUpsert_dict_fold (kf : A → K) (hinj : Function.Injective kf)
    (tr : List (A × F × V)) :
    ∀ (d : List (A × List (F × V))) (s : List (SDoc K F V)),
      ((d.map Prod.fst).Nodup ∧ ∀ e ∈ d, (e.2.map Prod.fst).Nodup) →
      recsUpsert kf s (tr.foldl (fun d w => dictSet d w.1 w.2.1 w.2.2) d) =
        tr.foldl (fun s w => upsert s (kf w.1) [(w.2.1, w.2.2)]) (recsUpsert kf s d) := by
  induction tr with
  | nil => intro d s _; rfl
  | cons w tr ih =>
    intro d s hwf
    rw [List.foldl_cons, List.foldl_cons,
      ih (dictSet d w.1 w.2.1 w.2.2) s (dictWF_dictSet d w.1 w.2.1 w.2.2 hwf),
      recsUpsert_dictSet kf hinj d w.1 w.2.1 w.2.2 hwf s]

/-! ## `run` as a trace of single-field upserts (per-timestamp variant) -/

theorem P_windowApply_eq (zone : String) (E : List (String × List String))
    (gen : List (String × Rat)) (price : List (String × List (String × Rat)))
    (s : P.PStore) :
    P.windowApply zone E gen price s =
      (P.windowTrace E gen price).foldl
        (fun s t => upsert s (zone, t.1) [(t.2.1, t.2.2)]) s := by
  have hinj : Function.Injective (fun ts : String => (zone, ts)) := by
    intro a b h
    simpa using h
  exact recsUpsert_dict_fold (fun ts => (zone, ts)) hinj
    (P.windowTrace E gen price) [] s ⟨by simp, by simp⟩

theorem P_zoneWrites_cons (zone : String) (E : List (String × List String))
    (data : P.Oracle) (eic : String) (w : Nat × Nat) (ws : List (Nat × Nat)) :
    P.zoneWrites zone E data eic (w :: ws) =
      (P.windowTrace E (data eic w).1 (data eic w).2).map
          (fun t => ((zone, t.1), [(t.2.1, t.2.2)])) ++
        P.zoneWrites zone E data eic ws := by
  simp [P.zoneWrites]

theorem P_foldl_windows_eq (zone : String) (E : List (String × List String))
    (data : P.Oracle) (eic : String) (ws : List (Nat × Nat)) :
    ∀ s : P.PStore,
      ws.foldl (fun s w => P.windowApply zone E (data eic w).1 (data eic w).2 s) s =
        (P.zoneWrites zone E data eic ws).foldl applyW s := by
  induction ws with
  | nil => intro s; rfl
  | cons w t ih =>
    intro s
    rw [List.foldl_cons, ih, P_zoneWrites_cons, List.foldl_append]
    have hw : P.windowApply zone E (data eic w).1 (data eic w).2 s =
        ((P.windowTrace E (data eic w).1 (data eic w).2).map
          (fun t => ((zone, t.1), [(t.2.1, t.2.2)]))).foldl applyW s := by
      rw [P_windowApply_eq, List.foldl_map]
      rfl
    rw [hw]

theorem P_runZone_eq (data : P.Oracle) (ws : List (Nat × Nat)) (s : P.PStore)
    (zp : String × String) :
    P.runZone data ws s zp =
      (P.zoneWrites zp.1 (P.get_existing s zp.1) data zp.2 ws).foldl applyW s := by
  unfold P.runZone
  exact P_foldl_windows_eq zp.1 (P.get_existing s zp.1) data zp.2 ws s

theorem P_runTrace_cons (data : P.Oracle) (ws : List (Nat × Nat))
    (zp : String × String) (zs : List (String × String)) (s : P.PStore) :
    P.runTrace data ws (zp :: zs) s =
      P.zoneWrites zp.1 (P.get_existing s zp.1) data zp.2 ws ++
        P.runTrace data ws zs
          ((P.zoneWrites zp.1 (P.get_existing s zp.1) data zp.2 ws).foldl applyW s) := by
  simp [P.runTrace]

theorem P_run_eq (data : P.Oracle) (now : Nat) :
    ∀ (zones : List (String × String)) (s : P.PStore),
      P.run zones data now s =
        (P.runTrace data (planMonthly aprilStart now) zones s).foldl applyW s := by
  intro zones
  induction zones with
  | nil => intro s; rfl
  | cons zp zs ih =>
    intro s
    have hih := ih (P.runZone data (planMonthly aprilStart now) s zp)
    unfold P.run at hih ⊢
    rw [List.foldl_cons, hih, P_runTrace_cons data (planMonthly aprilStart now) zp zs s,
      List.foldl_append, ← P_runZone_eq]

theorem countKey_foldl_applyW (ws : List (K × List (F × V))) :
    ∀ (s : List (SDoc K F V)) (k : K),
      countKey (ws.foldl applyW s) k ≤ max (countKey s k) 1 := by
  induction ws with
  | nil =>
    intro s k
    exact le_max_left _ _
  | cons w t ih =>
    intro s k
    rw [List.foldl_cons]
    refine le_trans (ih (applyW s w) k) ?_
    rw [applyW, countKey_upsert]
    by_cases h : k = w.1 ∧ countKey s w.1 = 0
    · rw [if_pos h]
      simp
    · rw [if_neg h]

/-! ## Coverage-index characterization (per-timestamp variant) -/

theorem P_filter_find (s : P.PStore) (z ts : String) :
    (s.filter (fun d => d.key.1 = z)).find? (fun d => d.key.2 = ts) =
      docLookup s (z, ts) := by
  induction s with
  | nil => rfl
  | cons d t ih =>
    rw [List.filter_cons, docLookup_cons]
    by_cases h1 : d.key.1 = z
    · rw [if_pos (by simpa using h1)]
      by_cases h2 : d.key.2 = ts
      · have hk : d.key = (z, ts) := Prod.ext h1 h2
        rw [if_pos hk, List.find?_cons_of_pos _ (by simpa using h2)]
      · have hk : ¬ d.key = (z, ts) := fun hh => h2 (by rw [hh])
        rw [if_neg hk, List.find?_cons_of_neg _ (by simpa using h2)]
        exact ih
    · have hk : ¬ d.key = (z, ts) := fun hh => h1 (by rw [hh])
      rw [if_neg (by simpa using h1), if_neg hk]
      exact ih

theorem P_nodup_zone_ts (s : P.PStore) (z : String)
    (h : (s.map (fun d => d.key)).Nodup) :
    ((s.filter (fun d => d.key.1 = z)).map (fun d => d.key.2)).Nodup := by
  induction s with
  | nil => simp
  | cons d t ih =>
    simp only [List.map_cons, List.nodup_cons] at h
    rw [List.filter_cons]
    by_cases h1 : d.key.1 = z
    · rw [if_pos (by simpa using h1)]
      rw [List.map_cons, List.nodup_cons]
      constructor
      · intro hc
        rw [List.mem_map] at hc
        obtain ⟨e, he, heq⟩ := hc
        have hez : e.key.1 = z := by
          have := List.of_mem_filter he
          simpa using this
        have : e.key = d.key := by
          apply Prod.ext
          · rw [hez, h1]
          · exact heq
        apply h.1
        rw [List.mem_map]
        exact ⟨e, List.mem_of_mem_filter he, this⟩
      · exact ih h.2
    · rw [if_neg (by simpa using h1)]
      exact ih h.2

theorem P_ge_fold_lookup (g : SDoc P.Key String Rat → List String)
    (docs : List (SDoc P.Key String Rat)) :
    ∀ (m : List (String × List String)) (ts : String),
      ((docs.map (fun d => d.key.2)).Nodup) →
      lookupF (docs.foldl (fun m doc => setField m doc.key.2 (g doc)) m) ts =
        match docs.find? (fun d => d.key.2 = ts) with
        | some d => some (g d)
        | none => lookupF m ts := by
  induction docs with
  | nil =>
    intro m ts _
    rfl
  | cons doc rest ih =>
    intro m ts hd
    simp only [List.map_cons, List.nodup_cons] at hd
    rw [List.foldl_cons, ih _ ts hd.2]
    by_cases h2 : doc.key.2 = ts
    · rw [List.find?_cons_of_pos _ (by simpa using h2)]
      have hrest : rest.find? (fun d => decide (d.key.2 = ts)) = none := by
        rw [List.find?_eq_none]
        intro e he hc
        apply hd.1
        rw [List.mem_map]
        exact ⟨e, he, by rw [(by simpa using hc : e.key.2 = ts), h2]⟩
      rw [hrest]
      rw [lookupF_setField]
      rw [if_pos h2.symm]
    · rw [List.find?_cons_of_neg _ (by simpa using h2)]
      cases hf : rest.find? (fun d => decide (d.key.2 = ts)) with
      | some e => rfl
      | none =>
        rw [lookupF_setField, if_neg (fun hh : ts = doc.key.2 => h2 hh.symm)]

theorem P_get_existing_lookup (s : P.PStore) (z : String)
    (hwf : (s.map (fun d => d.key)).Nodup) (ts : String) :
    lookupF (P.get_existing s z) ts =
      (docLookup s (z, ts)).map
        (fun d => P.projLabels.filter (fun k => (lookupF d.data k).isSome)) := by
  unfold P.get_existing
  rw [P_ge_fold_lookup _ _ [] ts (P_nodup_zone_ts s z hwf), P_filter_find]
  cases h : docLookup s (z, ts) with
  | some d => rfl
  | none => rfl

theorem P_skipTest_iff (s : P.PStore) (z : String)
    (hwf : (s.map (fun d => d.key)).Nodup) (ts l : String) :
    P.skipTest (P.get_existing s z) ts l = true ↔
      l ∈ P.projLabels ∧ (fieldVal s (z, ts) l).isSome := by
  unfold P.skipTest
  rw [P_get_existing_lookup s z hwf ts]
  cases h : docLookup s (z, ts) with
  | none =>
    rw [fieldVal, h]
    simp
  | some d =>
    rw [fieldVal, h, Option.some_bind]
    show decide (l ∈ P.projLabels.filter (fun k => (lookupF d.data k).isSome)) = true ↔ _
    constructor
    · intro hx
      have := of_decide_eq_true hx
      rw [List.mem_filter] at this
      exact ⟨this.1, by simpa using this.2⟩
    · intro hx
      apply decide_eq_true
      rw [List.mem_filter]
      exact ⟨hx.1, by simpa using hx.2⟩

theorem P_skipTest_mem_proj (E : List (String × List String)) (s : P.PStore)
    (z ts l : String) (hE : E = P.get_existing s z)
    (h : P.skipTest E ts l = true) : l ∈ P.projLabels := by
  subst hE
  unfold P.skipTest at h
  cases hl : lookupF (P.get_existing s z) ts with
  | none => rw [hl] at h; simp at h
  | some ks =>
    rw [hl] at h
    have hks := of_decide_eq_true h
    have : ∀ x ∈ ks, x ∈ P.projLabels := by
      intro x hx
      have hmem : (ts, ks) ∈ P.get_existing s z := lookupF_mem _ _ _ hl
      unfold P.get_existing at hmem
      have : ∀ (docs : List (SDoc P.Key String Rat))
          (m : List (String × List String)),
          (ts, ks) ∈ docs.foldl
            (fun m doc => setField m doc.key.2
              (P.projLabels.filter (fun k => (lookupF doc.data k).isSome))) m →
          (ts, ks) ∈ m ∨ ∀ x ∈ ks, x ∈ P.projLabels := by
        intro docs
        induction docs with
        | nil => intro m hm; exact Or.inl hm
        | cons doc rest ih2 =>
          intro m hm
          rw [List.foldl_cons] at hm
          rcases ih2 _ hm with h2 | h2
          · rcases mem_setField _ _ _ _ h2 with h3 | h3
            · exact Or.inl h3
            · right
              intro x hx2
              have : ks = P.projLabels.filter
                  (fun k => (lookupF doc.data k).isSome) := by
                have := congrArg Prod.snd h3
                simpa using this
              rw [this] at hx2
              exact (List.mem_filter.mp hx2).1
          · exact Or.inr h2
      rcases this _ [] hmem with h2 | h2
      · simp at h2
      · exact h2 x hx
    exact this l hks

theorem fieldVal_foldl_mono [DecidableEq V] (ws : List (K × List (F × V))) :
    ∀ (s : List (SDoc K F V)) (k : K) (f : F),
      (fieldVal s k f).isSome → (fieldVal (ws.foldl applyW s) k f).isSome := by
  induction ws with
  | nil => intro s k f h; exact h
  | cons w t ih =>
    intro s k f h
    rw [List.foldl_cons]
    exact ih _ k f (fieldVal_applyW_mono s w k f h)

/-! ## Run idempotence assembly (per-timestamp variant) -/

theorem map_filter_swap {X Y : Type} (f : X → Y) (p : X → Bool) (q : Y → Bool)
    (l : List X) (h : ∀ x ∈ l, q (f x) = p x) :
    (l.filter p).map f = (l.map f).filter q := by
  induction l with
  | nil => rfl
  | cons x t ih =>
    have iht := ih (fun y hy => h y (by simp [hy]))
    rw [List.filter_cons, List.map_cons, List.filter_cons, h x (by simp)]
    by_cases hp : p x
    · rw [if_pos (by simpa using hp), if_pos (by simpa using hp), List.map_cons, iht]
    · rw [if_neg (by simpa using hp), if_neg (by simpa using hp), iht]

theorem filter_flatMap_swap {X Y : Type} (g : X → List Y) (q : Y → Bool)
    (l : List X) :
    (l.flatMap g).filter q = l.flatMap (fun x => (g x).filter q) := by
  induction l with
  | nil => rfl
  | cons x t ih =>
    rw [List.flatMap_cons, List.flatMap_cons, List.filter_append, ih]

theorem P_zoneWrites_as_filter (z : String) (E : List (String × List String))
    (data : P.Oracle) (eic : String) (ws : List (Nat × Nat)) :
    P.zoneWrites z E data eic ws =
      (P.zoneRaw z data eic ws).filter
        (fun w => w.2.all (fun p => !(P.skipTest E w.1.2 p.1))) := by
  unfold P.zoneWrites P.zoneRaw
  rw [filter_flatMap_swap]
  congr 1
  funext w
  show (P.windowTrace E (data eic w).1 (data eic w).2).map _ = _
  unfold P.windowTrace
  apply map_filter_swap
  intro t _
  simp

theorem P_mem_zoneRaw (z : String) (data : P.Oracle) (eic : String)
    (ws : List (Nat × Nat)) (w : P.Key × List (String × Rat))
    (h : w ∈ P.zoneRaw z data eic ws) :
    w.1.1 = z ∧ ∃ ts l v, w = ((z, ts), [(l, v)]) := by
  unfold P.zoneRaw at h
  rw [List.mem_flatMap] at h
  obtain ⟨x, _, hx⟩ := h
  rw [List.mem_map] at hx
  obtain ⟨t, _, rfl⟩ := hx
  exact ⟨rfl, t.1, t.2.1, t.2.2, rfl⟩

theorem P_mem_zoneWrites (z : String) (E : List (String × List String))
    (data : P.Oracle) (eic : String) (ws : List (Nat × Nat))
    (w : P.Key × List (String × Rat)) (h : w ∈ P.zoneWrites z E data eic ws) :
    w.1.1 = z ∧ ∃ ts l v, w = ((z, ts), [(l, v)]) := by
  rw [P_zoneWrites_as_filter] at h
  exact P_mem_zoneRaw z data eic ws w (List.mem_of_mem_filter h)

theorem P_runTrace_append (data : P.Oracle) (ws : List (Nat × Nat)) :
    ∀ (zs1 zs2 : List (String × String)) (s : P.PStore),
      P.runTrace data ws (zs1 ++ zs2) s =
        P.runTrace data ws zs1 s ++
          P.runTrace data ws zs2 ((P.runTrace data ws zs1 s).foldl applyW s) := by
  intro zs1
  induction zs1 with
  | nil => intro zs2 s; rfl
  | cons zp zs ih =>
    intro zs2 s
    rw [List.cons_append, P_runTrace_cons, P_runTrace_cons, ih, List.append_assoc,
      List.foldl_append]

theorem P_mem_runTrace (data : P.Oracle) (ws : List (Nat × Nat)) :
    ∀ (zs : List (String × String)) (s : P.PStore)
      (w : P.Key × List (String × Rat)), w ∈ P.runTrace data ws zs s →
      w.1.1 ∈ zs.map Prod.fst ∧ ∃ ts l v, w = ((w.1.1, ts), [(l, v)]) := by
  intro zs
  induction zs with
  | nil => intro s w h; simp [P.runTrace] at h
  | cons zp t ih =>
    intro s w h
    rw [P_runTrace_cons] at h
    rcases List.mem_append.mp h with h | h
    · obtain ⟨hz, ts, l, v, hw⟩ := P_mem_zoneWrites _ _ _ _ _ _ h
      exact ⟨by simp [hz], ts, l, v, by rw [hz]; exact hw⟩
    · obtain ⟨hz, hh⟩ := ih _ _ h
      exact ⟨by simp [hz], hh⟩

theorem P_runTrace_singletons (data : P.Oracle) (ws : List (Nat × Nat))
    (zs : List (String × String)) (s : P.PStore)
    (w : P.Key × List (String × Rat)) (h : w ∈ P.runTrace data ws zs s) :
    ∃ f v, w.2 = [(f, v)] := by
  obtain ⟨_, ts, l, v, hw⟩ := P_mem_runTrace data ws zs s w h
  exact ⟨l, v, by rw [hw]⟩

theorem docExists_foldl (ws : List (K × List (F × V))) :
    ∀ (s : List (SDoc K F V)) (k : K), (docLookup s k).isSome →
      (docLookup (ws.foldl applyW s) k).isSome := by
  induction ws with
  | nil => intro s k h; exact h
  | cons w t ih =>
    intro s k h
    rw [List.foldl_cons]
    exact ih _ k (docExists_applyW s w k h)

theorem fieldVal_applyW_ne (s : List (SDoc K F V)) (w : K × List (F × V))
    (k : K) (f : F) (h : w.1 ≠ k) :
    fieldVal (applyW s w) k f = fieldVal s k f := by
  rw [fieldVal, fieldVal, applyW, docLookup_upsert,
    if_neg (fun hh : k = w.1 => h hh.symm)]

theorem fieldVal_foldl_preserve (ws : List (K × List (F × V))) :
    ∀ (s : List (SDoc K F V)) (k : K) (f : F), (∀ w ∈ ws, w.1 ≠ k) →
      fieldVal (ws.foldl applyW s) k f = fieldVal s k f := by
  induction ws with
  | nil => intro s k f _; rfl
  | cons w t ih =>
    intro s k f h
    rw [List.foldl_cons, ih _ k f (fun x hx => h x (by simp [hx])),
      fieldVal_applyW_ne s w k f (h w (by simp))]

/-- One zone's pass of a second run is the identity: with the store already
holding the first run's result, every projected-label point is skipped, and
the remaining (dynamic-label) writes replay values the store already holds. -/
theorem P_zone_pass_id (data : P.Oracle) (ws : List (Nat × Nat))
    (zp : String × String) (post : List (String × String)) (sz : P.PStore)
    (hwf : WFStore sz) (hpost : zp.1 ∉ post.map Prod.fst) :
    P.runZone data ws
        ((P.runTrace data ws post
            ((P.zoneWrites zp.1 (P.get_existing sz zp.1) data zp.2 ws).foldl applyW sz)).foldl
          applyW
          ((P.zoneWrites zp.1 (P.get_existing sz zp.1) data zp.2 ws).foldl applyW sz)) zp =
      (P.runTrace data ws post
          ((P.zoneWrites zp.1 (P.get_existing sz zp.1) data zp.2 ws).foldl applyW sz)).foldl
        applyW
        ((P.zoneWrites zp.1 (P.get_existing sz zp.1) data zp.2 ws).foldl applyW sz) := by
  set Tz := P.zoneWrites zp.1 (P.get_existing sz zp.1) data zp.2 ws with hTzdef
  set smid := Tz.foldl applyW sz with hsmid
  set Tpost := P.runTrace data ws post smid with hTpostdef
  set s1 := Tpost.foldl applyW smid with hs1
  have hTzsing : ∀ w ∈ Tz, ∃ ts l v, w = ((zp.1, ts), [(l, v)]) := by
    intro w hw
    exact (P_mem_zoneWrites _ _ _ _ _ _ hw).2
  have hTzsing2 : ∀ w ∈ Tz, ∃ f v, w.2 = [(f, v)] := by
    intro w hw
    obtain ⟨ts, l, v, hh⟩ := hTzsing w hw
    exact ⟨l, v, by rw [hh]⟩
  have hTzne : ∀ w ∈ Tz, w.2 ≠ [] := by
    intro w hw
    obtain ⟨ts, l, v, hh⟩ := hTzsing w hw
    rw [hh]
    simp
  have hTzkey : ∀ w ∈ Tz, w.1.1 = zp.1 := fun w hw =>
    (P_mem_zoneWrites _ _ _ _ _ _ hw).1
  have hwfmid : WFStore smid := WFStore_foldl Tz sz hwf
  have hwfs1 : WFStore s1 := WFStore_foldl Tpost smid hwfmid
  have hpostkeys : ∀ w ∈ Tpost, w.1.1 ≠ zp.1 := by
    intro w hw hc
    obtain ⟨hz, _⟩ := P_mem_runTrace data ws post smid w hw
    rw [hc] at hz
    exact hpost hz
  have hsat : ∀ x ∈ P.zoneRaw zp.1 data zp.2 ws, ∀ ts l v,
      x = ((zp.1, ts), [(l, v)]) → l ∈ P.projLabels →
      (fieldVal s1 (zp.1, ts) l).isSome := by
    intro x hx ts l v hxeq _
    by_cases hskip : P.skipTest (P.get_existing sz zp.1) ts l = true
    · have hcov := ((P_skipTest_iff sz zp.1 hwf.1 ts l).mp hskip).2
      exact fieldVal_foldl_mono Tpost _ _ _ (fieldVal_foldl_mono Tz _ _ _ hcov)
    · have hxTz : x ∈ Tz := by
        rw [hTzdef, P_zoneWrites_as_filter, List.mem_filter]
        refine ⟨hx, ?_⟩
        rw [hxeq]
        simpa using hskip
      have hmemfw : (l, v) ∈ fieldWrites Tz (zp.1, ts) :=
        mem_fieldWrites Tz (zp.1, ts) [(l, v)] (l, v) (hxeq ▸ hxTz) (by simp)
      obtain ⟨v2, hv2⟩ := Option.isSome_iff_exists.mp
        (lastVal_isSome_of_mem _ l v hmemfw)
      have hmid : fieldVal smid (zp.1, ts) l = some v2 := by
        rw [hsmid]
        exact fieldVal_foldl_applyW sz Tz hTzne (zp.1, ts) l v2 hv2
      exact fieldVal_foldl_mono Tpost _ _ _ (by simp [hmid])
  have hstep2 : P.zoneWrites zp.1 (P.get_existing s1 zp.1) data zp.2 ws =
      Tz.filter (fun w => w.2.all (fun p => !(decide (p.1 ∈ P.projLabels)))) := by
    rw [P_zoneWrites_as_filter, hTzdef, P_zoneWrites_as_filter, List.filter_filter]
    apply List.filter_congr
    intro x hx
    obtain ⟨hx1, ts, l, v, hxeq⟩ := P_mem_zoneRaw _ _ _ _ _ hx
    rw [hxeq]
    simp only [List.all_cons, List.all_nil, Bool.and_true]
    by_cases hm : l ∈ P.projLabels
    · have hcov := hsat x hx ts l v hxeq hm
      have hsk : P.skipTest (P.get_existing s1 zp.1) ts l = true :=
        (P_skipTest_iff s1 zp.1 hwfs1.1 ts l).mpr ⟨hm, hcov⟩
      rw [hsk]
      simp [hm]
    · have hsk : P.skipTest (P.get_existing s1 zp.1) ts l = false := by
        by_contra hc
        rw [Bool.not_eq_false] at hc
        exact hm ((P_skipTest_iff s1 zp.1 hwfs1.1 ts l).mp hc).1
      have hsk0 : P.skipTest (P.get_existing sz zp.1) ts l = false := by
        by_contra hc
        rw [Bool.not_eq_false] at hc
        exact hm (P_skipTest_mem_proj _ sz zp.1 ts l rfl hc)
      rw [hsk, hsk0]
      simp [hm]
  have habs : (Tz.filter
      (fun w => w.2.all (fun p => !(decide (p.1 ∈ P.projLabels))))).foldl applyW s1 = s1 := by
    apply foldl_applyW_absorb s1 _ hwfs1
    · intro w hw
      exact hTzne w (List.mem_of_mem_filter hw)
    · intro w hw
      have hwm := List.mem_of_mem_filter hw
      have h1 : (docLookup smid w.1).isSome := by
        rw [hsmid, docLookup_foldl_applyW Tz hTzne sz w.1]
        cases hl : docLookup sz w.1 with
        | some d => simp
        | none =>
          rw [if_neg (fieldWrites_ne_nil Tz w hwm (hTzne w hwm))]
          simp
      exact docExists_foldl Tpost smid w.1 h1
    · intro k f v hlv
      rw [fieldWrites_filter_singleton Tz hTzsing2
        (fun _ f => !(decide (f ∈ P.projLabels))) k] at hlv
      rw [lastVal_filter (fieldWrites Tz k)
        (fun f => !(decide (f ∈ P.projLabels))) f] at hlv
      by_cases hq : (!(decide (f ∈ P.projLabels))) = true
      · rw [if_pos hq] at hlv
        have hmid : fieldVal smid k f = some v := by
          rw [hsmid]
          exact fieldVal_foldl_applyW sz Tz hTzne k f v hlv
        have hk1 : k.1 = zp.1 := by
          have hne2 : fieldWrites Tz k ≠ [] := by
            intro hc
            rw [hc] at hlv
            simp [lastVal] at hlv
          by_contra hc
          apply hne2
          apply fieldWrites_eq_nil
          intro w hw hk
          exact hc (by rw [← hk]; exact hTzkey w hw)
        rw [hs1, fieldVal_foldl_preserve Tpost smid k f ?_]
        · exact hmid
        · intro w hw hc
          apply hpostkeys w hw
          rw [hc, hk1]
      · rw [if_neg hq] at hlv
        simp at hlv
  rw [P_runZone_eq, hstep2]
  exact habs

/-- Running the per-timestamp synchronization a second time over the result
of a first run (same windows and upstream responses) changes nothing. -/
theorem P_run_twice (data : P.Oracle) (now : Nat)
    (zones : List (String × String)) (s0 : P.PStore)
    (hnd : (zones.map Prod.fst).Nodup) (hwf : WFStore s0) :
    P.run zones data now (P.run zones data now s0) = P.run zones data now s0 := by
  have haux : ∀ (post pre : List (String × String)), zones = pre ++ post →
      post.foldl (P.runZone data (planMonthly aprilStart now))
        (P.run zones data now s0) = P.run zones data now s0 := by
    intro post
    induction post with
    | nil => intro pre h; rfl
    | cons zp post2 ih =>
      intro pre h
      have hpost : zp.1 ∉ post2.map Prod.fst := by
        rw [h] at hnd
        simp only [List.map_append, List.map_cons, List.nodup_append] at hnd
        have := hnd.2.1
        rw [List.nodup_cons] at this
        exact this.1
      have hsplit := P_run_eq data now zones s0
      conv at hsplit =>
        rhs
        rw [h, P_runTrace_append data (planMonthly aprilStart now) pre (zp :: post2) s0,
          P_runTrace_cons, List.foldl_append, List.foldl_append]
      rw [List.foldl_cons]
      have hzone : P.runZone data (planMonthly aprilStart now)
          (P.run zones data now s0) zp = P.run zones data now s0 := by
        rw [hsplit]
        exact P_zone_pass_id data (planMonthly aprilStart now) zp post2
          ((P.runTrace data (planMonthly aprilStart now) pre s0).foldl applyW s0)
          (WFStore_foldl _ _ hwf) hpost
      rw [hzone]
      exact ih (pre ++ [zp]) (by rw [List.append_assoc]; exact h)
  have := haux zones [] rfl
  unfold P.run
  unfold P.run at this
  exact this

/-! ## `run` as a trace of day-document upserts (per-day variant) -/

theorem exc_bind_ok {e a b : Type} (x : a) (f : a → Except e b) :
    (Except.ok x : Except e a) >>= f = f x := rfl

theorem exc_bind_err {e a b : Type} (m : e) (f : a → Except e b) :
    (Except.error m : Except e a) >>= f = Except.error m := rfl

theorem exc_map_ok {e a b : Type} (f : a → b) (x : a) :
    Except.map f (Except.ok x : Except e a) = Except.ok (f x) := rfl

theorem exc_map_err {e a b : Type} (f : a → b) (m : e) :
    Except.map f (Except.error m : Except e a) = Except.error m := rfl

theorem exc_pure {e a : Type} (x : a) :
    (pure x : Except e a) = Except.ok x := rfl

theorem exc_map_map {e a b c : Type} (f : a → b) (g : b → c) (x : Except e a) :
    Except.map g (Except.map f x) = Except.map (fun v => g (f v)) x := by
  cases x <;> rfl

theorem exc_map_congr {e a b : Type} {f g : a → b} (x : Except e a)
    (h : ∀ v, f v = g v) : Except.map f x = Except.map g x := by
  cases x with
  | error m => rfl
  | ok v => simp only [exc_map_ok, h]

theorem T_win_trace_acc (data : T.Oracle) (zp : String × String) (now : Nat)
    (wl : List (Nat × Nat)) :
    ∀ acc : List ((String × String) × List (String × T.Bucket)),
      wl.foldlM (fun acc w => do
        let merged ← T.merge_series (data zp.2 w).1 (data zp.2 w).2
        if merged = [] then Except.ok acc
        else Except.ok (acc ++ [((zp.1, dayKey w.1), merged)])) acc =
      (wl.foldlM (fun acc w => do
        let merged ← T.merge_series (data zp.2 w).1 (data zp.2 w).2
        if merged = [] then Except.ok acc
        else Except.ok (acc ++ [((zp.1, dayKey w.1), merged)])) []).map
          (fun l => acc ++ l) := by
  induction wl with
  | nil => intro acc; simp [exc_pure, exc_map_ok]
  | cons w t ih =>
    intro acc
    rw [List.foldlM_cons, List.foldlM_cons]
    cases hm : T.merge_series (data zp.2 w).1 (data zp.2 w).2 with
    | error e => rfl
    | ok m =>
      simp only [exc_bind_ok]
      by_cases hm2 : m = []
      · rw [if_pos hm2, if_pos hm2]
        simp only [exc_bind_ok]
        exact ih acc
      · rw [if_neg hm2, if_neg hm2]
        simp only [exc_bind_ok]
        rw [ih (acc ++ [((zp.1, dayKey w.1), m)]), ih ([] ++ [((zp.1, dayKey w.1), m)]),
          exc_map_map]
        apply exc_map_congr
        intro v
        simp

theorem T_win_run_eq (data : T.Oracle) (zp : String × String) (now : Nat)
    (wl : List (Nat × Nat)) :
    ∀ s : T.TStore,
      wl.foldlM (fun s w => do
        let merged ← T.merge_series (data zp.2 w).1 (data zp.2 w).2
        if merged = [] then Except.ok s
        else Except.ok (upsert s (zp.1, dayKey w.1) merged)) s =
      (wl.foldlM (fun acc w => do
        let merged ← T.merge_series (data zp.2 w).1 (data zp.2 w).2
        if merged = [] then Except.ok acc
        else Except.ok (acc ++ [((zp.1, dayKey w.1), merged)])) []).map
          (fun l : List ((String × String) × List (String × T.Bucket)) =>
            l.foldl applyW s) := by
  induction wl with
  | nil => intro s; simp [exc_pure, exc_map_ok]
  | cons w t ih =>
    intro s
    rw [List.foldlM_cons, List.foldlM_cons]
    cases hm : T.merge_series (data zp.2 w).1 (data zp.2 w).2 with
    | error e => rfl
    | ok m =>
      simp only [exc_bind_ok]
      by_cases hm2 : m = []
      · rw [if_pos hm2, if_pos hm2]
        simp only [exc_bind_ok]
        exact ih s
      · rw [if_neg hm2, if_neg hm2]
        simp only [exc_bind_ok]
        rw [ih (upsert s (zp.1, dayKey w.1) m),
          T_win_trace_acc data zp now t ([] ++ [((zp.1, dayKey w.1), m)]),
          exc_map_map]
        apply exc_map_congr
        intro v
        simp [applyW]

set_option maxRecDepth 4000 in
theorem T_trace_acc (data : T.Oracle) (now : Nat)
    (zones : List (String × String)) :
    ∀ acc : List ((String × String) × List (String × T.Bucket)),
      zones.foldlM (fun acc (zp : String × String) =>
        (planDaily juneStart now).foldlM (fun acc w => do
          let merged ← T.merge_series (data zp.2 w).1 (data zp.2 w).2
          if merged = [] then Except.ok acc
          else Except.ok (acc ++ [((zp.1, dayKey w.1), merged)])) acc) acc =
      (zones.foldlM (fun acc (zp : String × String) =>
        (planDaily juneStart now).foldlM (fun acc w => do
          let merged ← T.merge_series (data zp.2 w).1 (data zp.2 w).2
          if merged = [] then Except.ok acc
          else Except.ok (acc ++ [((zp.1, dayKey w.1), merged)])) acc) []).map
          (fun l => acc ++ l) := by
  induction zones with
  | nil => intro acc; simp [exc_pure, exc_map_ok]
  | cons zp zs ih =>
    intro acc
    rw [List.foldlM_cons, List.foldlM_cons]
    rw [T_win_trace_acc data zp now (planDaily juneStart now) acc]
    cases hw : (planDaily juneStart now).foldlM (fun acc w => do
        let merged ← T.merge_series (data zp.2 w).1 (data zp.2 w).2
        if merged = [] then Except.ok acc
        else Except.ok (acc ++ [((zp.1, dayKey w.1), merged)])) [] with
    | error e => simp only [exc_map_err, exc_bind_err]
    | ok l1 =>
      simp only [exc_map_ok, exc_bind_ok]
      rw [ih (acc ++ l1), ih l1, exc_map_map]
      apply exc_map_congr
      intro v
      simp

set_option maxRecDepth 4000 in
theorem T_run_eq (data : T.Oracle) (now : Nat) :
    ∀ (zones : List (String × String)) (s : T.TStore),
      T.run zones data now s =
        (T.trace zones data now).map (fun l => l.foldl applyW s) := by
  intro zones
  induction zones with
  | nil => intro s; simp [T.run, T.trace, exc_pure, exc_map_ok]
  | cons zp zs ih =>
    intro s
    unfold T.run T.trace
    rw [List.foldlM_cons, List.foldlM_cons]
    rw [T_win_run_eq data zp now (planDaily juneStart now) s]
    cases hw : (planDaily juneStart now).foldlM (fun acc w => do
        let merged ← T.merge_series (data zp.2 w).1 (data zp.2 w).2
        if merged = [] then Except.ok acc
        else Except.ok (acc ++ [((zp.1, dayKey w.1), merged)])) [] with
    | error e => simp only [exc_map_err, exc_bind_err]
    | ok l1 =>
      simp only [exc_map_ok, exc_bind_ok]
      have ihz := ih (l1.foldl applyW s)
      unfold T.run T.trace at ihz
      rw [ihz, T_trace_acc data now zs l1, exc_map_map]
      apply exc_map_congr
      intro v
      simp [List.foldl_append]

theorem T_win_trace_ne (data : T.Oracle) (zp : String × String) (now : Nat)
    (wl : List (Nat × Nat)) :
    ∀ (acc l : List ((String × String) × List (String × T.Bucket))),
      wl.foldlM (fun acc w => do
        let merged ← T.merge_series (data zp.2 w).1 (data zp.2 w).2
        if merged = [] then Except.ok acc
        else Except.ok (acc ++ [((zp.1, dayKey w.1), merged)])) acc = Except.ok l →
      (∀ w ∈ acc, w.2 ≠ []) → ∀ w ∈ l, w.2 ≠ [] := by
  induction wl with
  | nil =>
    intro acc l h hacc
    rw [List.foldlM_nil] at h
    rw [exc_pure] at h
    obtain rfl : acc = l := by simpa using h
    exact hacc
  | cons w t ih =>
    intro acc l h hacc
    rw [List.foldlM_cons] at h
    cases hm : T.merge_series (data zp.2 w).1 (data zp.2 w).2 with
    | error e =>
      rw [hm, exc_bind_err] at h
      exact Except.noConfusion h
    | ok m =>
      rw [hm, exc_bind_ok] at h
      by_cases hm2 : m = []
      · rw [if_pos hm2, exc_bind_ok] at h
        exact ih acc l h hacc
      · rw [if_neg hm2, exc_bind_ok] at h
        refine ih _ l h ?_
        intro x hx
        rcases List.mem_append.mp hx with hx | hx
        · exact hacc x hx
        · rw [List.mem_singleton] at hx
          rw [hx]
          exact hm2

set_option maxRecDepth 4000 in
theorem T_trace_writes_ne (data : T.Oracle) (now : Nat) :
    ∀ (zones : List (String × String))
      (acc l : List ((String × String) × List (String × T.Bucket))),
      zones.foldlM (fun acc (zp : String × String) =>
        (planDaily juneStart now).foldlM (fun acc w => do
          let merged ← T.merge_series (data zp.2 w).1 (data zp.2 w).2
          if merged = [] then Except.ok acc
          else Except.ok (acc ++ [((zp.1, dayKey w.1), merged)])) acc) acc =
        Except.ok l →
      (∀ w ∈ acc, w.2 ≠ []) → ∀ w ∈ l, w.2 ≠ [] := by
  intro zones
  induction zones with
  | nil =>
    intro acc l h hacc
    rw [List.foldlM_nil, exc_pure] at h
    obtain rfl : acc = l := by simpa using h
    exact hacc
  | cons zp zs ih =>
    intro acc l h hacc
    rw [List.foldlM_cons] at h
    cases hw : (planDaily juneStart now).foldlM (fun acc w => do
        let merged ← T.merge_series (data zp.2 w).1 (data zp.2 w).2
        if merged = [] then Except.ok acc
        else Except.ok (acc ++ [((zp.1, dayKey w.1), merged)])) acc with
    | error e =>
      rw [hw, exc_bind_err] at h
      exact Except.noConfusion h
    | ok l1 =>
      rw [hw, exc_bind_ok] at h
      exact ih l1 l h (T_win_trace_ne data zp now _ acc l1 hw hacc)

set_option maxRecDepth 4000 in
/-- Running the per-day synchronization a second time over the result of a
successful first run (same windows and upstream responses) succeeds and
changes nothing. -/
theorem T_run_twice (zones : List (String × String)) (data : T.Oracle)
    (now : Nat) (s0 s1 : T.TStore) (hwf : WFStore s0)
    (h : T.run zones data now s0 = Except.ok s1) :
    T.run zones data now s1 = Except.ok s1 := by
  rw [T_run_eq data now zones s0] at h
  rw [T_run_eq data now zones s1]
  cases ht : T.trace zones data now with
  | error e =>
    rw [ht, exc_map_err] at h
    exact Except.noConfusion h
  | ok L =>
    rw [ht, exc_map_ok] at h
    obtain rfl : L.foldl applyW s0 = s1 := by simpa using h
    rw [exc_map_ok]
    have hne : ∀ w ∈ L, w.2 ≠ [] := by
      apply T_trace_writes_ne data now zones [] L
      · unfold T.trace at ht
        exact ht
      · intro w hw
        simp at hw
    rw [foldl_applyW_replay s0 L hwf hne]

/-! ## Calendar correctness -/

theorem isLeap_iff (y : Nat) :
    isLeap y = true ↔ ((y % 4 = 0 ∧ ¬ y % 100 = 0) ∨ y % 400 = 0) := by
  unfold isLeap
  simp [Bool.or_eq_true, Bool.and_eq_true]

set_option maxHeartbeats 1000000 in
theorem daysBeforeYear_succ (y : Nat) (hy : 1 ≤ y) :
    daysBeforeYear (y + 1) = daysBeforeYear y + daysInYear y := by
  simp only [daysBeforeYear, daysInYear, isLeap_iff]
  split_ifs with hcond
  · rcases hcond with ⟨h4, h100⟩ | h400
    · omega
    · omega
  · have h2 : y % 400 ≠ 0 := fun hc => hcond (Or.inr hc)
    by_cases h4 : y % 4 = 0
    · have h100 : y % 100 = 0 := by
        by_contra hc
        exact hcond (Or.inl ⟨h4, hc⟩)
      omega
    · omega

theorem daysBeforeYear_mono {a b : Nat} (h : a ≤ b) :
    daysBeforeYear a ≤ daysBeforeYear b := by
  unfold daysBeforeYear
  have h' : a - 1 ≤ b - 1 := by omega
  have h4 : (a - 1) / 4 ≤ (b - 1) / 4 := Nat.div_le_div_right h'
  have h400 : (a - 1) / 400 ≤ (b - 1) / 400 := Nat.div_le_div_right h'
  have hk : (b - 1) / 100 ≤ (a - 1) / 100 + ((b - 1) - (a - 1)) := by
    calc (b - 1) / 100 ≤ ((a - 1) + 100 * ((b - 1) - (a - 1))) / 100 :=
          Nat.div_le_div_right (by omega)
    _ = (a - 1) / 100 + ((b - 1) - (a - 1)) := by
        rw [Nat.add_mul_div_left (a - 1) ((b - 1) - (a - 1)) (by norm_num)]
  omega

theorem yearOfOrdinal_spec (n : Nat) :
    daysBeforeYear (yearOfOrdinal n) ≤ n ∧ n < daysBeforeYear (yearOfOrdinal n + 1) ∧
      1 ≤ yearOfOrdinal n := by
  unfold yearOfOrdinal daysBeforeYear
  dsimp only
  split_ifs <;> omega

theorem monthLoop_succ (y fuel m d : Nat) :
    monthLoop y (fuel + 1) m d =
      if d < daysInMonth y m then (m, d)
      else monthLoop y fuel (m + 1) (d - daysInMonth y m) := rfl

theorem dbm_succ (y m : Nat) (h : 1 ≤ m) :
    daysBeforeMonth y (m + 1) = daysBeforeMonth y m + daysInMonth y m := by
  show (if m = 0 then 0 else daysBeforeMonth y m + daysInMonth y m) = _
  rw [if_neg (by omega)]

theorem dbm13 (y : Nat) : daysBeforeMonth y 13 = daysInYear y := by
  cases hl : isLeap y <;>
    norm_num [daysBeforeMonth, daysInMonth, daysInYear, hl]

theorem daysInMonth_le (y m : Nat) : daysInMonth y m ≤ 31 := by
  unfold daysInMonth
  split_ifs <;> omega

theorem daysInMonth_pos (y m : Nat) : 1 ≤ daysInMonth y m := by
  unfold daysInMonth
  split_ifs <;> omega

theorem monthLoop_spec (y : Nat) :
    ∀ (fuel m d : Nat), 1 ≤ m →
      d < daysBeforeMonth y (m + fuel) - daysBeforeMonth y m →
      daysBeforeMonth y (monthLoop y fuel m d).1 + (monthLoop y fuel m d).2 =
          daysBeforeMonth y m + d ∧
        (monthLoop y fuel m d).2 < daysInMonth y (monthLoop y fuel m d).1 ∧
        m ≤ (monthLoop y fuel m d).1 ∧ (monthLoop y fuel m d).1 < m + fuel := by
  intro fuel
  induction fuel with
  | zero =>
    intro m d _ h2
    simp at h2
  | succ fuel ih =>
    intro m d h1 h2
    rw [monthLoop_succ]
    by_cases hlt : d < daysInMonth y m
    · rw [if_pos hlt]
      exact ⟨rfl, hlt, Nat.le_refl m, by omega⟩
    · rw [if_neg hlt]
      have hs := dbm_succ y m h1
      have harr : m + (fuel + 1) = (m + 1) + fuel := by omega
      rw [harr] at h2
      have hrec := ih (m + 1) (d - daysInMonth y m) (by omega) (by omega)
      refine ⟨?_, hrec.2.1, by omega, by omega⟩
      omega

theorem dateOfOrdinal_spec (n : Nat) :
    1 ≤ (dateOfOrdinal n).1 ∧
      1 ≤ (dateOfOrdinal n).2.1 ∧ (dateOfOrdinal n).2.1 ≤ 12 ∧
      1 ≤ (dateOfOrdinal n).2.2 ∧
      (dateOfOrdinal n).2.2 ≤ daysInMonth (dateOfOrdinal n).1 (dateOfOrdinal n).2.1 ∧
      ordinalOfDate (dateOfOrdinal n).1 (dateOfOrdinal n).2.1 (dateOfOrdinal n).2.2 = n := by
  obtain ⟨hy1, hy2, hy3⟩ := yearOfOrdinal_spec n
  have hsucc := daysBeforeYear_succ (yearOfOrdinal n) hy3
  have h13 := dbm13 (yearOfOrdinal n)
  have hd1 : daysBeforeMonth (yearOfOrdinal n) 1 = 0 := rfl
  have hml := monthLoop_spec (yearOfOrdinal n) 12 1 (n - daysBeforeYear (yearOfOrdinal n))
    (by norm_num)
    (by
      show _ < daysBeforeMonth _ 13 - _
      rw [h13, hd1]
      omega)
  unfold dateOfOrdinal ordinalOfDate
  dsimp only
  rw [hd1] at hml
  refine ⟨hy3, hml.2.2.1, by omega, by omega, by omega, ?_⟩
  omega

theorem ordinalOfDate_dateOfOrdinal (n : Nat) :
    ordinalOfDate (dateOfOrdinal n).1 (dateOfOrdinal n).2.1 (dateOfOrdinal n).2.2 = n :=
  (dateOfOrdinal_spec n).2.2.2.2.2

theorem toAbsMin_ofAbsMin (n sec : Nat) (u : Bool) :
    toAbsMin (ofAbsMin n sec u) = n := by
  unfold toAbsMin ofAbsMin
  dsimp only
  rw [ordinalOfDate_dateOfOrdinal]
  omega

theorem addMinutes_utc (t : PyDateTime) (delta : Int) :
    (addMinutes t delta).utc = t.utc := rfl

theorem addMinutes_second (t : PyDateTime) (delta : Int) :
    (addMinutes t delta).second = t.second := rfl

theorem toAbsMin_addMinutes (t : PyDateTime) (delta : Int) (h : 0 ≤ delta) :
    (toAbsMin (addMinutes t delta) : Int) = toAbsMin t + delta := by
  unfold addMinutes
  rw [toAbsMin_ofAbsMin]
  omega

theorem nextMonthStart_gt (t : Nat) : t < nextMonthStart t := by
  unfold nextMonthStart
  dsimp only
  have hs := dateOfOrdinal_spec (t / 1440 + 32)
  have hle := daysInMonth_le (dateOfOrdinal (t / 1440 + 32)).1
    (dateOfOrdinal (t / 1440 + 32)).2.1
  unfold ordinalOfDate at hs ⊢
  omega

/-! ## Window planner properties -/

theorem planDailyGo_stable :
    ∀ (f1 f2 c n : Nat), n - c ≤ f1 → n - c ≤ f2 →
      planDailyGo f1 c n = planDailyGo f2 c n := by
  intro f1
  induction f1 with
  | zero =>
    intro f2 c n h1 h2
    cases f2 with
    | zero => rfl
    | succ f2 =>
      show planDailyGo 0 c n = if c < n then _ else []
      rw [if_neg (by omega)]
      rfl
  | succ f1 ih =>
    intro f2 c n h1 h2
    cases f2 with
    | zero =>
      show (if c < n then _ else []) = planDailyGo 0 c n
      rw [if_neg (by omega)]
      rfl
    | succ f2 =>
      show (if c < n then _ :: planDailyGo f1 (c + 1440) n else []) =
        (if c < n then _ :: planDailyGo f2 (c + 1440) n else [])
      by_cases hc : c < n
      · rw [if_pos hc, if_pos hc, ih f2 (c + 1440) n (by omega) (by omega)]
      · rw [if_neg hc, if_neg hc]

theorem planDaily_rec (c n : Nat) :
    planDaily c n =
      if c < n then (c, min (c + 1440) n) :: planDaily (c + 1440) n else [] := by
  unfold planDaily
  by_cases hc : c < n
  · rw [if_pos hc]
    have h1 : n - c = (n - c - 1) + 1 := by omega
    rw [h1]
    show (if c < n then _ :: planDailyGo (n - c - 1) (c + 1440) n else []) = _
    rw [if_pos hc, planDailyGo_stable (n - c - 1) (n - (c + 1440)) (c + 1440) n
      (by omega) (by omega)]
  · rw [if_neg hc]
    have h1 : n - c = 0 := by omega
    rw [h1]
    rfl

set_option maxRecDepth 2000 in
set_option linter.constructorNameAsVariable false in
theorem planDaily_pack :
    ∀ (k start now : Nat), now - start ≤ k →
      (∀ w ∈ planDaily start now, start ≤ w.1 ∧ w.1 < now ∧ w.2 = min (w.1 + 1440) now) ∧
      (∀ w, (planDaily start now).head? = some w → w.1 = start) ∧
      List.Chain' (fun w1 w2 => w1.2 = w2.1) (planDaily start now) ∧
      (∀ t, start ≤ t → t < now → ∃ w ∈ planDaily start now, w.1 ≤ t ∧ t < w.2) := by
  intro k
  induction k with
  | zero =>
    intro start now hk
    rw [planDaily_rec, if_neg (by omega)]
    refine ⟨by simp, by simp, by simp, ?_⟩
    intro t h1 h2
    omega
  | succ k ih =>
    intro start now hk
    rw [planDaily_rec]
    by_cases hc : start < now
    · rw [if_pos hc]
      obtain ⟨ihmem, ihhead, ihchain, ihcover⟩ := ih (start + 1440) now (by omega)
      refine ⟨?_, ?_, ?_, ?_⟩
      · intro w hw
        rcases List.mem_cons.mp hw with hw | hw
        · rw [hw]
          exact ⟨Nat.le_refl _, hc, rfl⟩
        · obtain ⟨ha, hb, hcc⟩ := ihmem w hw
          exact ⟨by omega, hb, hcc⟩
      · intro w hw
        simp only [List.head?_cons, Option.some.injEq] at hw
        rw [← hw]
      · rcases h2 : planDaily (start + 1440) now with _ | ⟨w2, rest⟩
        · simp
        · rw [h2] at ihchain
          refine List.Chain'.cons' ihchain ?_
          intro y hy
          simp only [List.head?_cons, Option.mem_def, Option.some.injEq] at hy
          subst hy
          have hy1 : w2.1 = start + 1440 := by
            refine ihhead w2 ?_
            rw [h2]
            rfl
          have hy2 : w2.1 < now := by
            refine (ihmem w2 ?_).2.1
            rw [h2]
            exact List.mem_cons_self w2 rest
          dsimp only
          omega
      · intro t h1 h2
        by_cases ht : t < start + 1440
        · refine ⟨(start, min (start + 1440) now), List.mem_cons_self _ _, h1, ?_⟩
          dsimp only
          omega
        · obtain ⟨w, hw, hw1, hw2⟩ := ihcover t (by omega) h2
          exact ⟨w, List.mem_cons_of_mem _ hw, hw1, hw2⟩
    · rw [if_neg hc]
      refine ⟨by simp, by simp, by simp, ?_⟩
      intro t h1 h2
      omega

theorem chain_pairwise (l : List (Nat × Nat)) (hch : List.Chain' (fun w1 w2 => w1.2 = w2.1) l)
    (hw : ∀ w ∈ l, w.1 < w.2) : List.Pairwise (fun w1 w2 => w1.2 ≤ w2.1) l := by
  induction l with
  | nil => exact List.Pairwise.nil
  | cons w t ih =>
    rw [List.pairwise_cons]
    have hcht := (List.chain'_cons'.mp hch).2
    refine ⟨?_, ih hcht (fun x hx => hw x (List.mem_cons_of_mem _ hx))⟩
    have haux : ∀ (t : List (Nat × Nat)) (w : Nat × Nat),
        List.Chain' (fun w1 w2 => w1.2 = w2.1) (w :: t) →
        (∀ x ∈ w :: t, x.1 < x.2) → ∀ x ∈ t, w.2 ≤ x.1 := by
      intro t
      induction t with
      | nil =>
        intro w _ _ x hx
        exact absurd hx (List.not_mem_nil x)
      | cons y t2 ih2 =>
        intro w hch2 hlt x hx
        have hwy : w.2 = y.1 := by
          have := (List.chain'_cons'.mp hch2).1 y rfl
          exact this
        rcases List.mem_cons.mp hx with hx | hx
        · rw [hx]
          omega
        · have hyx := ih2 y (List.chain'_cons'.mp hch2).2
            (fun z hz => hlt z (List.mem_cons_of_mem _ hz)) x hx
          have hylt := hlt y (List.mem_cons_of_mem _ (List.mem_cons_self _ _))
          omega
    exact haux t w hch hw

theorem planMonthlyGo_stable :
    ∀ (f1 f2 c n : Nat), n - c ≤ f1 → n - c ≤ f2 →
      planMonthlyGo f1 c n = planMonthlyGo f2 c n := by
  intro f1
  induction f1 with
  | zero =>
    intro f2 c n h1 h2
    cases f2 with
    | zero => rfl
    | succ f2 =>
      show planMonthlyGo 0 c n = if c < n then _ else []
      rw [if_neg (by omega)]
      rfl
  | succ f1 ih =>
    intro f2 c n h1 h2
    cases f2 with
    | zero =>
      show (if c < n then _ else []) = planMonthlyGo 0 c n
      rw [if_neg (by omega)]
      rfl
    | succ f2 =>
      show (if c < n then _ :: planMonthlyGo f1 (nextMonthStart c) n else []) =
        (if c < n then _ :: planMonthlyGo f2 (nextMonthStart c) n else [])
      have hg := nextMonthStart_gt c
      by_cases hc : c < n
      · rw [if_pos hc, if_pos hc, ih f2 (nextMonthStart c) n (by omega) (by omega)]
      · rw [if_neg hc, if_neg hc]

theorem planMonthly_rec (c n : Nat) :
    planMonthly c n =
      if c < n then (c, min (nextMonthStart c) n) :: planMonthly (nextMonthStart c) n
      else [] := by
  unfold planMonthly
  have hg := nextMonthStart_gt c
  by_cases hc : c < n
  · rw [if_pos hc]
    have h1 : n - c = (n - c - 1) + 1 := by omega
    rw [h1]
    show (if c < n then _ :: planMonthlyGo (n - c - 1) (nextMonthStart c) n else []) = _
    rw [if_pos hc, planMonthlyGo_stable (n - c - 1) (n - nextMonthStart c) (nextMonthStart c) n
      (by omega) (by omega)]
  · rw [if_neg hc]
    have h1 : n - c = 0 := by omega
    rw [h1]
    rfl

set_option maxRecDepth 2000 in
set_option linter.constructorNameAsVariable false in
theorem planMonthly_pack :
    ∀ (k start now : Nat), now - start ≤ k →
      (∀ w ∈ planMonthly start now,
        start ≤ w.1 ∧ w.1 < now ∧ w.2 = min (nextMonthStart w.1) now) ∧
      (∀ w, (planMonthly start now).head? = some w → w.1 = start) ∧
      List.Chain' (fun w1 w2 => w1.2 = w2.1) (planMonthly start now) ∧
      (∀ t, start ≤ t → t < now → ∃ w ∈ planMonthly start now, w.1 ≤ t ∧ t < w.2) := by
  intro k
  induction k with
  | zero =>
    intro start now hk
    rw [planMonthly_rec, if_neg (by omega)]
    refine ⟨by simp, by simp, by simp, ?_⟩
    intro t h1 h2
    omega
  | succ k ih =>
    intro start now hk
    rw [planMonthly_rec]
    have hg := nextMonthStart_gt start
    by_cases hc : start < now
    · rw [if_pos hc]
      obtain ⟨ihmem, ihhead, ihchain, ihcover⟩ := ih (nextMonthStart start) now (by omega)
      refine ⟨?_, ?_, ?_, ?_⟩
      · intro w hw
        rcases List.mem_cons.mp hw with hw | hw
        · rw [hw]
          exact ⟨Nat.le_refl _, hc, rfl⟩
        · obtain ⟨ha, hb, hcc⟩ := ihmem w hw
          exact ⟨by omega, hb, hcc⟩
      · intro w hw
        simp only [List.head?_cons, Option.some.injEq] at hw
        rw [← hw]
      · rcases h2 : planMonthly (nextMonthStart start) now with _ | ⟨w2, rest⟩
        · simp
        · rw [h2] at ihchain
          refine List.Chain'.cons' ihchain ?_
          intro y hy
          simp only [List.head?_cons, Option.mem_def, Option.some.injEq] at hy
          subst hy
          have hy1 : w2.1 = nextMonthStart start := by
            refine ihhead w2 ?_
            rw [h2]
            rfl
          have hy2 : w2.1 < now := by
            refine (ihmem w2 ?_).2.1
            rw [h2]
            exact List.mem_cons_self w2 rest
          dsimp only
          omega
      · intro t h1 h2
        by_cases ht : t < nextMonthStart start
        · refine ⟨(start, min (nextMonthStart start) now), List.mem_cons_self _ _, h1, ?_⟩
          dsimp only
          omega
        · obtain ⟨w, hw, hw1, hw2⟩ := ihcover t (by omega) h2
          exact ⟨w, List.mem_cons_of_mem _ hw, hw1, hw2⟩
    · rw [if_neg hc]
      refine ⟨by simp, by simp, by simp, ?_⟩
      intro t h1 h2
      omega

/-! ## Supporting lemmas for the claim theorems -/

theorem lastVal_none_of_not_mem (fs : List (F × V)) (f : F)
    (h : f ∉ fs.map Prod.fst) : lastVal fs f = none := by
  induction fs with
  | nil => rfl
  | cons p t ih =>
    obtain ⟨a, b⟩ := p
    rw [lastVal_cons]
    have ht : lastVal t f = none := ih (fun hc => h (by simp; right; simpa using hc))
    rw [ht]
    show (if a = f then some b else none) = none
    rw [if_neg (fun hc => h (by simp [hc]))]

theorem upsert_insert (s : List (SDoc K F V)) (k : K) (fs : List (F × V))
    (h : docLookup s k = none) : upsert s k fs = s ++ [⟨k, setAll [] fs⟩] := by
  unfold upsert
  rw [h]

theorem fieldVal_upsert_not_mem (s : List (SDoc K F V)) (k : K)
    (fs : List (F × V)) (f : F) (hf : f ∉ fs.map Prod.fst) :
    fieldVal (upsert s k fs) k f = fieldVal s k f := by
  have hlv := lastVal_none_of_not_mem fs f hf
  unfold fieldVal
  rw [docLookup_upsert, if_pos rfl]
  cases hd : docLookup s k with
  | none =>
    rw [Option.some_bind, Option.none_bind, lookupF_setAll, hlv]
    rfl
  | some d =>
    rw [Option.some_bind, Option.some_bind]
    dsimp only
    rw [lookupF_setAll, hlv]

theorem P_ge_subset (s : P.PStore) (z : String) :
    ∀ ts ks, lookupF (P.get_existing s z) ts = some ks → ∀ l ∈ ks, l ∈ P.projLabels := by
  unfold P.get_existing
  have haux : ∀ (docs : List (SDoc P.Key String Rat)) (m : List (String × List String)),
      (∀ ts ks, lookupF m ts = some ks → ∀ l ∈ ks, l ∈ P.projLabels) →
      ∀ ts ks,
        lookupF (docs.foldl (fun m doc =>
          setField m doc.key.2
            (P.projLabels.filter (fun k => (lookupF doc.data k).isSome))) m) ts =
          some ks →
        ∀ l ∈ ks, l ∈ P.projLabels := by
    intro docs
    induction docs with
    | nil => intro m hm; exact hm
    | cons d t ih =>
      intro m hm
      rw [List.foldl_cons]
      refine ih _ ?_
      intro ts ks hl l hlk
      rw [lookupF_setField] at hl
      by_cases he : ts = d.key.2
      · rw [if_pos he] at hl
        have hks : P.projLabels.filter (fun k => (lookupF d.data k).isSome) = ks := by
          simpa using hl
        rw [← hks] at hlk
        exact (List.mem_filter.mp hlk).1
      · rw [if_neg he] at hl
        exact hm ts ks hl l hlk
  exact haux _ [] (by intro ts ks h; rw [lookupF_nil] at h; exact Option.noConfusion h)

/-! ## The claims -/

/-- C1: with identical upstream responses and no concurrent writers, running
either synchronization a second time over the result of a first run leaves
the store unchanged: the per-timestamp `run` is literally idempotent and
never stores two documents under one `(zone, timestamp)` key, and a second
per-day `run` succeeds and returns the same store. -/
theorem C1_run_twice_idempotent (zones : List (String × String))
    (data : P.Oracle) (dataT : T.Oracle) (now : Nat) (s0 : P.PStore)
    (t0 t1 : T.TStore) (hnd : (zones.map Prod.fst).Nodup) (hwf : WFStore s0)
    (hwfT : WFStore t0) (hrun : T.run zones dataT now t0 = Except.ok t1) :
    P.run zones data now (P.run zones data now s0) = P.run zones data now s0 ∧
    (∀ k, countKey (P.run zones data now s0) k ≤ max (countKey s0 k) 1) ∧
    T.run zones dataT now t1 = Except.ok t1 := by
  refine ⟨P_run_twice data now zones s0 hnd hwf, ?_, ?_⟩
  · intro k
    rw [P_run_eq]
    exact countKey_foldl_applyW _ _ _
  · exact T_run_twice zones dataT now t0 t1 hwfT hrun

/-- C1 witness: a one-zone instance with a fixed response set; an empty
initial store is well-formed and the per-day run succeeds on it. -/
theorem C1_run_twice_idempotent_witness :
    ((([("AT", "E")] : List (String × String)).map Prod.fst).Nodup ∧
      WFStore ([] : P.PStore) ∧ WFStore ([] : T.TStore) ∧
      T.run [("AT", "E")] (fun _ _ => ([], [])) (aprilStart + 10) [] = Except.ok []) ∧
    (P.run [("AT", "E")] (fun _ _ => ([("T1", 100)], [])) (aprilStart + 10)
        (P.run [("AT", "E")] (fun _ _ => ([("T1", 100)], [])) (aprilStart + 10) []) =
      P.run [("AT", "E")] (fun _ _ => ([("T1", 100)], [])) (aprilStart + 10) [] ∧
    (∀ k, countKey (P.run [("AT", "E")] (fun _ _ => ([("T1", 100)], []))
        (aprilStart + 10) []) k ≤ max (countKey ([] : P.PStore) k) 1) ∧
    T.run [("AT", "E")] (fun _ _ => ([], [])) (aprilStart + 10) [] = Except.ok []) := by
  refine ⟨⟨by decide, ?_, ?_, by rfl⟩, ?_⟩
  · exact ⟨List.nodup_nil, by intro d hd; exact absurd hd (List.not_mem_nil d)⟩
  · exact ⟨List.nodup_nil, by intro d hd; exact absurd hd (List.not_mem_nil d)⟩
  · exact C1_run_twice_idempotent [("AT", "E")] (fun _ _ => ([("T1", 100)], []))
      (fun _ _ => ([], [])) (aprilStart + 10) [] [] [] (by decide)
      ⟨List.nodup_nil, by intro d hd; exact absurd hd (List.not_mem_nil d)⟩
      ⟨List.nodup_nil, by intro d hd; exact absurd hd (List.not_mem_nil d)⟩ (by rfl)

/-- C2: corrected.  The decoded instant is indeed the period start plus
`(position − 1) × resolution` minutes, and the price decoder emits the
claimed string `2025-06-01T01:00:00Z` for the spec instance; but the
generation decoder parses the `Z`-marked start as timezone-aware, so its
`isoformat()` carries `+00:00` and the emitted string for the same instance
is `2025-06-01T01:00:00+00:00Z`, not `2025-06-01T01:00:00Z`. -/
theorem C2_point_timestamp (st : PyDateTime) (pos : Int) (interval : Nat)
    (h : 1 ≤ pos) :
    (toAbsMin (addMinutes st ((pos - 1) * (interval : Int))) : Int) =
        toAbsMin st + (pos - 1) * interval ∧
    pointTs st pos interval =
      pyIso (addMinutes st ((pos - 1) * (interval : Int))) ++ "Z" ∧
    P.fetch_generation (some genDoc5) =
      Except.ok [("2025-06-01T01:00:00+00:00Z", 100)] ∧
    P.fetch_prices (some priceDoc5) =
      Except.ok [("A44_A01", [("2025-06-01T01:00:00Z", 453 / 10)]), ("A44_A07", [])] ∧
    ("2025-06-01T01:00:00+00:00Z" : String) ≠ "2025-06-01T01:00:00Z" := by
  refine ⟨?_, rfl, by decide, by rfl, by decide⟩
  exact toAbsMin_addMinutes st _ (mul_nonneg (by omega) (by positivity))

/-- C2 witness: the arithmetic relation at the spec instance (position 5,
15-minute resolution, start `2025-06-01T00:00:00Z`). -/
theorem C2_point_timestamp_witness :
    (1 : Int) ≤ 5 ∧
    (toAbsMin (addMinutes ⟨2025, 6, 1, 0, 0, 0, true⟩ ((5 - 1) * (15 : Int))) : Int) =
      toAbsMin ⟨2025, 6, 1, 0, 0, 0, true⟩ + (5 - 1) * 15 :=
  ⟨by decide, (C2_point_timestamp ⟨2025, 6, 1, 0, 0, 0, true⟩ 5 15 (by decide)).1⟩

/-- C3: corrected.  A missing/non-200/malformed document indeed yields the
empty result and a `TimeSeries` without a `Period` is skipped, but a
`Period` lacking `timeInterval/start` or `resolution` is not skipped: the
decoder dereferences the failed `find` and raises `AttributeError`. -/
theorem C3_decoder_errors :
    P.fetch_generation none = Except.ok [] ∧
    P.fetch_prices none = Except.ok [("A44_A01", []), ("A44_A07", [])] ∧
    P.fetch_generation (some noPeriodDoc) = Except.ok [] ∧
    P.fetch_generation (some noResDoc) = Except.error "AttributeError" ∧
    P.fetch_generation (some noStartDoc) = Except.error "AttributeError" ∧
    T.fetch_generation (some noResDoc) = Except.error "AttributeError" := by
  refine ⟨rfl, rfl, by decide, by decide, by decide, by decide⟩

/-- C4: the daily and monthly planners produce ordered, contiguous,
non-overlapping windows starting at `start`, each of nominal width (one day,
resp. up to the next month start) clipped to `now`, covering `[start, now)`
exactly; for start 2025-06-01 and now 2025-06-03T12:00 the daily planner
yields exactly the three claimed windows. -/
theorem C4_window_planner (start now : Nat) :
    (∀ w ∈ planDaily start now,
      start ≤ w.1 ∧ w.1 < now ∧ w.2 = min (w.1 + 1440) now) ∧
    (∀ w, (planDaily start now).head? = some w → w.1 = start) ∧
    List.Chain' (fun w1 w2 => w1.2 = w2.1) (planDaily start now) ∧
    List.Pairwise (fun w1 w2 => w1.2 ≤ w2.1) (planDaily start now) ∧
    (∀ t, start ≤ t → t < now → ∃ w ∈ planDaily start now, w.1 ≤ t ∧ t < w.2) ∧
    (∀ w ∈ planMonthly start now,
      start ≤ w.1 ∧ w.1 < now ∧ w.2 = min (nextMonthStart w.1) now) ∧
    List.Chain' (fun w1 w2 => w1.2 = w2.1) (planMonthly start now) ∧
    List.Pairwise (fun w1 w2 => w1.2 ≤ w2.1) (planMonthly start now) ∧
    (∀ t, start ≤ t → t < now → ∃ w ∈ planMonthly start now, w.1 ≤ t ∧ t < w.2) ∧
    planDaily juneStart (juneStart + 3600) =
      [(juneStart, juneStart + 1440), (juneStart + 1440, juneStart + 2880),
       (juneStart + 2880, juneStart + 3600)] := by
  obtain ⟨dmem, dhead, dchain, dcover⟩ :=
    planDaily_pack (now - start) start now (Nat.le_refl _)
  obtain ⟨mmem, mhead, mchain, mcover⟩ :=
    planMonthly_pack (now - start) start now (Nat.le_refl _)
  refine ⟨dmem, dhead, dchain, ?_, dcover, mmem, mchain, ?_, mcover, by decide⟩
  · refine chain_pairwise _ dchain ?_
    intro w hw
    obtain ⟨h1, h2, h3⟩ := dmem w hw
    omega
  · refine chain_pairwise _ mchain ?_
    intro w hw
    obtain ⟨h1, h2, h3⟩ := mmem w hw
    have := nextMonthStart_gt w.1
    omega

/-- C5: an upsert inserts the record when its key is absent, and otherwise
writes exactly the fields present on the new record: absent fields keep
their stored values, other keys are untouched; in particular a record
holding only `A44_A01` merged onto a document holding `A75_A16_B16` yields
both fields, the old one unchanged. -/
theorem C5_upsert_frame (s : P.PStore) (k : P.Key) (fs : List (String × Rat))
    (f : String) (v w : Rat) :
    (docLookup s k = none → upsert s k fs = s ++ [⟨k, setAll [] fs⟩]) ∧
    (f ∉ fs.map Prod.fst → fieldVal (upsert s k fs) k f = fieldVal s k f) ∧
    (∀ k1, k1 ≠ k → docLookup (upsert s k fs) k1 = docLookup s k1) ∧
    fieldVal (upsert [⟨k, [("A75_A16_B16", w)]⟩] k [("A44_A01", v)]) k "A75_A16_B16"
      = some w ∧
    fieldVal (upsert [⟨k, [("A75_A16_B16", w)]⟩] k [("A44_A01", v)]) k "A44_A01"
      = some v := by
  refine ⟨fun h => upsert_insert s k fs h,
    fun h => fieldVal_upsert_not_mem s k fs f h, ?_, ?_, ?_⟩
  · intro k1 hk1
    rw [docLookup_upsert, if_neg hk1]
  · unfold upsert docLookup fieldVal docLookup
    simp [docUpdate, setAll, setField, lookupF]
  · unfold upsert docLookup fieldVal docLookup
    simp [docUpdate, setAll, setField, lookupF]

/-- C5 witness: inserting into the empty store. -/
theorem C5_upsert_frame_witness :
    docLookup ([] : P.PStore) ("AT", "T") = none ∧
    upsert ([] : P.PStore) ("AT", "T") [("A44_A01", 1)] =
      [] ++ [⟨("AT", "T"), setAll [] [("A44_A01", 1)]⟩] :=
  ⟨rfl, (C5_upsert_frame [] ("AT", "T") [("A44_A01", 1)] "x" 1 2).1 rfl⟩

/-- C6: a decoded point is excluded from the merge exactly when the coverage
index reports its (timestamp, label) pair; with `A75_A16_B16` reported at
`T`, a generation point at `T` is dropped while an `A44_A01` price point at
`T` is kept. -/
theorem C6_skip_policy (E : List (String × List String))
    (gen : List (String × Rat)) (price : List (String × List (String × Rat))) :
    (∀ w, w ∈ P.windowTrace E gen price ↔
      w ∈ P.rawTrace gen price ∧ P.skipTest E w.1 w.2.1 = false) ∧
    P.windowTrace [("T", ["A75_A16_B16"])] [("T", 100)]
        [("A44_A01", [("T", 453 / 10)])] =
      [("T", "A44_A01", 453 / 10)] := by
  constructor
  · intro w
    simp [P.windowTrace, List.mem_filter, Bool.not_eq_true']
  · rfl

/-- C7: a price point's stored value is the upstream amount divided by
exactly 10 (453 decodes to 45.3) while a generation quantity is stored
unscaled. -/
theorem C7_price_scaling :
    P.fetch_prices (some priceDoc5) =
      Except.ok [("A44_A01", [("2025-06-01T01:00:00Z", 453 / 10)]), ("A44_A07", [])] ∧
    (453 : Rat) / 10 = 45.3 ∧
    P.fetch_generation (some genDoc5) =
      Except.ok [("2025-06-01T01:00:00+00:00Z", 100)] ∧
    T.fetch_generation (some genDoc5) =
      Except.ok [("2025-06-01T01:00:00+00:00Z", 100, "PT15M")] := by
  refine ⟨by rfl, by norm_num, by decide, by decide⟩

/-- C8: corrected.  An unrecognized resolution is decoded with the explicit
60-minute fallback (no error in either decoder), but the per-day variant's
`merge_series` indexes its two-key dictionary with the raw resolution
string, so a resolution outside PT15M/PT60M raises `KeyError` there and
aborts that run: the fallback does not extend through merging and
persistence. -/
theorem C8_resolution_fallback (res : String) (h15 : res ≠ "PT15M")
    (h60 : res ≠ "PT60M") :
    resInterval res = 60 ∧
    P.fetch_generation (some gen30Doc) =
      Except.ok [("2025-06-01T00:00:00+00:00Z", 100),
        ("2025-06-01T01:00:00+00:00Z", 200)] ∧
    T.merge_series [("x", 100, res)] [] = Except.error "KeyError" ∧
    T.run [("AT", "EIC")] (fun _ _ => ([("x", 100, "PT30M")], [])) (juneStart + 10) [] =
      Except.error "KeyError" := by
  refine ⟨?_, by decide, ?_, by rfl⟩
  · unfold resInterval
    rw [if_neg h15, if_neg h60]
  · unfold T.merge_series
    rw [List.foldlM_cons]
    dsimp only
    rw [if_neg h15, if_neg h60]
    rfl

/-- C8 witness: the PT30M instance. -/
theorem C8_resolution_fallback_witness :
    (("PT30M" : String) ≠ "PT15M" ∧ ("PT30M" : String) ≠ "PT60M") ∧
    resInterval "PT30M" = 60 :=
  ⟨⟨by decide, by decide⟩,
    (C8_resolution_fallback "PT30M" (by decide) (by decide)).1⟩

/-- C9: corrected.  The coverage index reports, per timestamp, only labels
from the fixed projection (`A75_A16_B16`, `A44_A01`, `A44_A07`); a stored
document whose only series label is the dynamically observed `A44_A05`
yields an empty reported set, so "any label present appears in the set" is
false. -/
theorem C9_coverage_projection :
    (∀ (s : P.PStore) (z ts : String) (ks : List String),
      lookupF (P.get_existing s z) ts = some ks → ∀ l ∈ ks, l ∈ P.projLabels) ∧
    P.get_existing [⟨("AT", "T0"), [("A44_A05", 1)]⟩] "AT" = [("T0", [])] ∧
    fieldVal [⟨("AT", "T0"), [("A44_A05", (1 : Rat))]⟩] ("AT", "T0") "A44_A05" =
      some 1 := by
  refine ⟨?_, by decide, by decide⟩
  intro s z ts ks h
  exact P_ge_subset s z ts ks h

/-- C9 witness: the reported set for the `A44_A05`-only document instance. -/
theorem C9_coverage_projection_witness :
    lookupF (P.get_existing [⟨("AT", "T0"), [("A44_A05", (1 : Rat))]⟩] "AT") "T0" =
      some [] ∧
    (∀ l ∈ ([] : List String), l ∈ P.projLabels) :=
  ⟨by decide,
    (C9_coverage_projection).1 [⟨("AT", "T0"), [("A44_A05", 1)]⟩] "AT" "T0" [] (by decide)⟩

/-- C10: for one Period start carrying a trailing `Z` the price decoder
parses a naive datetime (the `Z` stripped) and the generation decoder an
aware one; the two emitted point strings always differ (lengths 20 and 26),
though they denote the same instant, so generation and price points for one
instant never share a key. -/
theorem C10_timestamp_divergence (y mo da h mi se : Nat) (pos : Int)
    (interval : Nat) :
    toAbsMin ⟨y, mo, da, h, mi, se, true⟩ = toAbsMin ⟨y, mo, da, h, mi, se, false⟩ ∧
    (pointTs ⟨y, mo, da, h, mi, se, true⟩ pos interval).length = 26 ∧
    (pointTs ⟨y, mo, da, h, mi, se, false⟩ pos interval).length = 20 ∧
    pointTs ⟨y, mo, da, h, mi, se, true⟩ pos interval ≠
      pointTs ⟨y, mo, da, h, mi, se, false⟩ pos interval ∧
    piso "2025-06-01T00:00:00Z" = Except.ok ⟨2025, 6, 1, 0, 0, 0, true⟩ ∧
    piso (stripZ "2025-06-01T00:00:00Z") = Except.ok ⟨2025, 6, 1, 0, 0, 0, false⟩ ∧
    pointTs ⟨2025, 6, 1, 0, 0, 0, true⟩ 5 15 = "2025-06-01T01:00:00+00:00Z" ∧
    pointTs ⟨2025, 6, 1, 0, 0, 0, false⟩ 5 15 = "2025-06-01T01:00:00Z" := by
  have hlen : ∀ (u : Bool), (pointTs ⟨y, mo, da, h, mi, se, u⟩ pos interval).length =
      if u then 26 else 20 := by
    intro u
    unfold pointTs pyIso pad2 pad4
    rw [addMinutes_utc]
    cases u <;> simp [String.length_append] <;> rfl
  refine ⟨rfl, ?_, ?_, ?_, by decide, by decide, by decide, by decide⟩
  · rw [hlen true]
    rfl
  · rw [hlen false]
    rfl
  · intro hc
    have hc2 := congrArg String.length hc
    rw [hlen true, hlen false] at hc2
    simp at hc2


/-- C2 counterexample instance: the generation decoder emits
`2025-06-01T01:00:00+00:00Z` for the spec instance, which is not the claimed
string `2025-06-01T01:00:00Z`. -/
theorem C2_counterexample :
    P.fetch_generation (some genDoc5) =
      Except.ok [("2025-06-01T01:00:00+00:00Z", 100)] ∧
    ("2025-06-01T01:00:00+00:00Z" : String) ≠ "2025-06-01T01:00:00Z" :=
  ⟨by decide, by decide⟩

/-- C3 counterexample instance: a `Period` with a `timeInterval/start` but no
`resolution` makes the decoder raise `AttributeError` instead of skipping. -/
theorem C3_counterexample :
    P.fetch_generation (some noResDoc) = Except.error "AttributeError" := by
  decide

/-- C8 counterexample instance: a run of the per-day variant over a window
whose generation data carries resolution `PT30M` aborts with `KeyError`. -/
theorem C8_counterexample :
    T.run [("AT", "EIC")] (fun _ _ => ([("x", 100, "PT30M")], [])) (juneStart + 10) [] =
      Except.error "KeyError" := by
  rfl

/-- C9 counterexample instance: a document storing only the dynamic price
label `A44_A05` is reported with an empty label set. -/
theorem C9_counterexample :
    P.get_existing [⟨("AT", "T0"), [("A44_A05", (1 : Rat))]⟩] "AT" = [("T0", [])] ∧
    fieldVal [⟨("AT", "T0"), [("A44_A05", (1 : Rat))]⟩] ("AT", "T0") "A44_A05" =
      some 1 :=
  ⟨by decide, by decide⟩

end Entsoe

